import Mathlib

/-!
Shallow embedding of `src/huffman.py` (single-file Huffman coder).

Python strings become `List Char` (or Lean `String` where the code stores
symbols), Python `bytes` become `List Nat` with every element below 256,
bitstrings (Python strings of the characters 0 and 1) become `List Bool`
(`true` for 1), Python dicts become association lists in insertion order
with assignment modelled as update-in-place-or-append, and functions that
can raise become `Except Err`.

`heapq` with `Node.__lt__` is a min-priority queue under a strict total
order (frequency, then `id()`); popping always yields the least element,
so the heap is modelled as a list with a deterministic pop-minimum.  The
`id()` of each object is an arbitrary natural number; the model threads an
arbitrary assignment `ids : Nat → Nat` giving the id of the k-th `Node`
allocated, so theorems quantified over `ids` cover every run of the
Python program.
-/

namespace Huffman

/-- Python exceptions raised by the source: `ValueError` (bad file /
leftover bits / json errors), `KeyError` (missing dict key in
`encode_text`), and `OverflowError` (from `int.to_bytes(4, ...)` when the
header is 4 GiB or more). -/
inductive Err where
  | valueError (msg : String)
  | keyError
  | overflowError
deriving DecidableEq, Repr

/-- A bitstring: in the Python source, a `str` of the characters 0 and 1. -/
abbrev BitStr := List Bool

/-- A byte value; every value constructed by the source is below 256
(Python `bytes` elements). -/
abbrev Byte := Nat

/-- `class Node`: `freq`, `symbol`, `left`, `right`.  Internal nodes have
`symbol=None` and two children; leaves have a symbol (a one-character
string, or the empty string for the dummy leaf of the single-symbol edge
case) and no children.  The extra `nid` field models the Python `id()` of
the object, used by `__lt__` as tie-breaker. -/
inductive Node where
  | leaf (freq : Nat) (nid : Nat) (symbol : String)
  | internal (freq : Nat) (nid : Nat) (left right : Node)
deriving DecidableEq, Repr

namespace Node

def freq : Node → Nat
  | leaf f _ _ => f
  | internal f _ _ _ => f

def nid : Node → Nat
  | leaf _ i _ => i
  | internal _ i _ _ => i

/-- `Node.__lt__`: compare by `freq`, tie-broken by `id()`. -/
def lt (a b : Node) : Bool :=
  if a.freq = b.freq then decide (a.nid < b.nid) else decide (a.freq < b.freq)

end Node

/-- Pop the minimum element of the heap under `Node.lt`, returning it and
the remaining elements.  `heapq.heappop` returns the least element of the
heap; when `Node.lt` is a strict total order on the elements (distinct
`(freq, id)` pairs, as in any Python run) the minimum is unique and this
is exactly the popped element. -/
def popMin : List Node → Option (Node × List Node)
  | [] => none
  | n :: ns =>
    match popMin ns with
    | none => some (n, [])
    | some (m, rest) => if Node.lt m n then some (m, n :: rest) else some (n, ns)

/-- One step of `freq[ch] += 1` on a `defaultdict(int)` held as an
association list in insertion order. -/
def bumpFreq : List (Char × Nat) → Char → List (Char × Nat)
  | [], c => [(c, 1)]
  | (k, v) :: rest, c =>
    if k = c then (k, v + 1) :: rest else (k, v) :: bumpFreq rest c

/-- `build_frequency_map`: count occurrences of each character, keys in
first-occurrence order (Python dict insertion order). -/
def build_frequency_map (text : List Char) : List (Char × Nat) :=
  text.foldl bumpFreq []

/-- The merge loop of `build_huffman_tree`: while more than one node is in
the heap, pop the two least, push their merge.  `fuel` bounds the number
of merges (the heap shrinks by one per iteration, so `fuel` = initial heap
size always suffices); `ctr` counts `Node` allocations so far, and the new
internal node receives id `ids ctr`. -/
def buildLoop (ids : Nat → Nat) : Nat → Nat → List Node → Option Node
  | 0, _, heap => (popMin heap).map (fun p => p.1)
  | fuel + 1, ctr, heap =>
    match popMin heap with
    | none => none
    | some (a, rest1) =>
      match popMin rest1 with
      | none => some a
      | some (b, rest2) =>
        buildLoop ids fuel (ctr + 1)
          (rest2 ++ [Node.internal (a.freq + b.freq) (ids ctr) a b])

/-- `build_huffman_tree`: push a leaf per `(symbol, freq)` item (ids in
creation order), handle the single-symbol edge case by wrapping the sole
leaf with a dummy zero-weight leaf carrying the empty-string symbol, then
run the merge loop; returns `none` on an empty table (`heap[0] if heap
else None`). -/
def build_huffman_tree (freq_map : List (Char × Nat)) (ids : Nat → Nat) :
    Option Node :=
  let heap := freq_map.enum.map
    (fun p => Node.leaf p.2.2 (ids p.1) (String.singleton p.2.1))
  let m := heap.length
  if heap.length = 1 then
    match popMin heap with
    | none => none
    | some (sole, _) =>
      -- `Node(0, symbol="")` is allocated first (argument evaluation),
      -- then the parent; the while loop then exits at once.
      let dummy := Node.leaf 0 (ids m) ""
      let parent := Node.internal sole.freq (ids (m + 1)) sole dummy
      buildLoop ids 1 (m + 2) [parent]
  else
    buildLoop ids heap.length m heap

/-- Python dict assignment `d[k] = v` on an association list: update the
existing entry in place, else append. -/
def dictInsert {α β : Type} [DecidableEq α] :
    List (α × β) → α → β → List (α × β)
  | [], k, v => [(k, v)]
  | (k', v') :: rest, k, v =>
    if k' = k then (k, v) :: rest else (k', v') :: dictInsert rest k v

/-- The `dfs` inner function of `generate_codes`: at a leaf (symbol is not
`None` and no children) record `path or '0'`; otherwise recurse left with
path + 0, then right with path + 1, threading the `codes` dict. -/
def genDfs : Node → BitStr → List (String × BitStr) → List (String × BitStr)
  | Node.leaf _ _ s, path, codes =>
    dictInsert codes s (if path = [] then [false] else path)
  | Node.internal _ _ l r, path, codes =>
    genDfs r (path ++ [true]) (genDfs l (path ++ [false]) codes)

/-- `generate_codes`: run `dfs(root, '')` on an empty dict; `None` input
(the `if node is None: return` guard) yields the empty dict. -/
def generate_codes : Option Node → List (String × BitStr)
  | none => []
  | some root => genDfs root [] []

/-- `encode_text`: look up each character in `codes` and concatenate; a
missing key raises `KeyError`. -/
def encode_text (text : List Char) (codes : List (String × BitStr)) :
    Except Err BitStr :=
  match text with
  | [] => .ok []
  | c :: cs =>
    match List.lookup (String.singleton c) codes with
    | none => .error .keyError
    | some bits =>
      match encode_text cs codes with
      | .error e => .error e
      | .ok rest => .ok (bits ++ rest)

/-- `int(chunk, 2)` on an 8-character chunk: most-significant bit first. -/
def byteOfBits (bits : BitStr) : Byte :=
  bits.foldl (fun acc b => 2 * acc + (if b then 1 else 0)) 0

/-- Fuel-driven worker for `chunk8`; the fuel only bounds the number of
chunks, and the input length always suffices. -/
def chunk8Aux : Nat → BitStr → List Byte
  | _, [] => []
  | 0, _ :: _ => []
  | fuel + 1, b :: rest =>
    byteOfBits ((b :: rest).take 8) :: chunk8Aux fuel ((b :: rest).drop 8)

/-- Group a bitstring into 8-bit chunks and convert each to a byte
(the `for i in range(0, len, 8)` loop of `bits_to_bytes`). -/
def chunk8 (bits : BitStr) : List Byte :=
  chunk8Aux bits.length bits

/-- `bits_to_bytes`: right-pad with zero bits to a multiple of 8, return
the packed bytes and the padding count `(8 - len % 8) % 8`. -/
def bits_to_bytes (bits : BitStr) : List Byte × Nat :=
  let padding := (8 - bits.length % 8) % 8
  (chunk8 (bits ++ List.replicate padding false), padding)

/-- `f-string 08b` of a byte value below 256: its 8 bits, most significant
first. -/
def bitsOfByte (n : Byte) : BitStr :=
  [n.testBit 7, n.testBit 6, n.testBit 5, n.testBit 4,
   n.testBit 3, n.testBit 2, n.testBit 1, n.testBit 0]

/-- `bytes_to_bits`: expand each payload byte to its 8-bit big-endian
representation and concatenate. -/
def bytes_to_bits (bs : List Byte) : BitStr :=
  (bs.map bitsOfByte).flatten

/-! ## The JSON header codec

`write_huff_file` serializes `\x7b"codes": \x7b...\x7d, "padding": n\x7d`
with `json.dumps(..., ensure_ascii=False)` and UTF-8-encodes it;
`read_huff_file` parses it back with `json.loads`.  The model renders
exactly the text `json.dumps` emits for this header shape (separators
`", "` and `": "`, escapes for quote, backslash and control characters)
and parses exactly that grammar, also accepting an absent `padding`
field, which `decompress_file` defaults to 0 via `header.get`. -/

/-- Opening brace character (0x7B). -/
def lbrace : Char := Char.ofNat 123

/-- Closing brace character (0x7D). -/
def rbrace : Char := Char.ofNat 125

/-- Lower-case hexadecimal digit, as `json.dumps` emits in escapes. -/
def hexDigit (n : Nat) : Char :=
  if n < 10 then Char.ofNat (48 + n) else Char.ofNat (87 + n)

/-- The `json.dumps` escape of one character inside a string literal:
quote, backslash and the named control escapes get a backslash form,
other control characters (below 0x20) become a hex escape, everything
else is emitted raw (`ensure_ascii=False`). -/
def escapeChar (c : Char) : List Char :=
  if c = '\"' then ['\\', '\"']
  else if c = '\\' then ['\\', '\\']
  else if c = Char.ofNat 8 then ['\\', 'b']
  else if c = Char.ofNat 9 then ['\\', 't']
  else if c = Char.ofNat 10 then ['\\', 'n']
  else if c = Char.ofNat 12 then ['\\', 'f']
  else if c = Char.ofNat 13 then ['\\', 'r']
  else if c.toNat < 32 then
    ['\\', 'u', '0', '0', hexDigit (c.toNat / 16), hexDigit (c.toNat % 16)]
  else [c]

/-- A JSON string literal for the given character content. -/
def quoteChars (s : List Char) : List Char :=
  '\"' :: (s.map escapeChar).flatten ++ ['\"']

/-- Render a bitstring back to the 0/1 characters the Python source
stores. -/
def bitsToChars (b : BitStr) : List Char :=
  b.map (fun x => if x then '1' else '0')

/-- Decimal digits of a natural number, most significant first
(helper for the last digit-peeling step). -/
def natToCharsAux : Nat → Nat → List Char → List Char
  | 0, _, acc => acc
  | fuel + 1, n, acc =>
    if n = 0 then acc
    else natToCharsAux fuel (n / 10) (Char.ofNat (48 + n % 10) :: acc)

/-- Decimal rendering of a natural number, as `json.dumps` renders the
`padding` integer.  The fuel `n` itself always covers the digit count. -/
def natToChars (n : Nat) : List Char :=
  if n = 0 then ['0'] else natToCharsAux n n []

/-- One `"key": "value"` entry of the codes object. -/
def dumpEntry (kv : String × BitStr) : List Char :=
  quoteChars kv.1.data ++ ':' :: ' ' :: quoteChars (bitsToChars kv.2)

/-- The codes entries joined with `", "`. -/
def dumpEntries : List (String × BitStr) → List Char
  | [] => []
  | [kv] => dumpEntry kv
  | kv :: rest => dumpEntry kv ++ ',' :: ' ' :: dumpEntries rest

/-- `json.dumps` of the header dict
`\x7b'codes': codes, 'padding': padding\x7d`. -/
def dumpHeader (codes : List (String × BitStr)) (padding : Nat) : List Char :=
  lbrace :: quoteChars "codes".data ++ ':' :: ' ' ::
    (lbrace :: dumpEntries codes ++ [rbrace]) ++ ',' :: ' ' ::
    quoteChars "padding".data ++ ':' :: ' ' :: natToChars padding ++ [rbrace]

/-- Value of a hexadecimal digit, both cases accepted as in JSON. -/
def hexVal (c : Char) : Option Nat :=
  if 48 ≤ c.toNat ∧ c.toNat ≤ 57 then some (c.toNat - 48)
  else if 97 ≤ c.toNat ∧ c.toNat ≤ 102 then some (c.toNat - 87)
  else if 65 ≤ c.toNat ∧ c.toNat ≤ 70 then some (c.toNat - 55)
  else none

/-- The character denoted by a single-character JSON escape. -/
def unescape (c : Char) : Option Char :=
  if c = '\"' then some '\"'
  else if c = '\\' then some '\\'
  else if c = '/' then some '/'
  else if c = 'b' then some (Char.ofNat 8)
  else if c = 't' then some (Char.ofNat 9)
  else if c = 'n' then some (Char.ofNat 10)
  else if c = 'f' then some (Char.ofNat 12)
  else if c = 'r' then some (Char.ofNat 13)
  else none

/-- Read the body of a JSON string literal up to its closing quote,
handling escapes; returns the content and the input after the closing
quote.  Raw control characters are rejected, as by `json.loads` in
strict mode. -/
def parseStringBody : List Char → Option (List Char × List Char)
  | [] => none
  | c :: rest =>
    if c = '\"' then some ([], rest)
    else if c = '\\' then
      match rest with
      | [] => none
      | e :: rest2 =>
        if e = 'u' then
          match rest2 with
          | h1 :: h2 :: h3 :: h4 :: rest3 =>
            match hexVal h1, hexVal h2, hexVal h3, hexVal h4 with
            | some a, some b, some c3, some d =>
              match parseStringBody rest3 with
              | some (s, r) =>
                some (Char.ofNat (4096 * a + 256 * b + 16 * c3 + d) :: s, r)
              | none => none
            | _, _, _, _ => none
          | _ => none
        else
          match unescape e with
          | none => none
          | some ec =>
            match parseStringBody rest2 with
            | some (s, r) => some (ec :: s, r)
            | none => none
    else if c.toNat < 32 then none
    else
      match parseStringBody rest with
      | some (s, r) => some (c :: s, r)
      | none => none

/-- Expect a literal character sequence at the head of the input. -/
def expectChars : List Char → List Char → Option (List Char)
  | [], s => some s
  | p :: ps, c :: s => if c = p then expectChars ps s else none
  | _ :: _, [] => none

/-- Interpret string content as a bitstring; any character other than 0
or 1 fails (the model parses only code tables of the shape the encoder
writes). -/
def charsToBits : List Char → Option BitStr
  | [] => some []
  | c :: rest =>
    if c = '0' then (charsToBits rest).map (fun b => false :: b)
    else if c = '1' then (charsToBits rest).map (fun b => true :: b)
    else none

/-- Consume leading decimal digits, returning their value; fails when no
digit is present. -/
def parseNatChars : List Char → Option (Nat × List Char)
  | s =>
    let digits := s.takeWhile (fun c => 48 ≤ c.toNat ∧ c.toNat ≤ 57)
    if digits = [] then none
    else some (digits.foldl (fun a c => 10 * a + (c.toNat - 48)) 0,
               s.dropWhile (fun c => 48 ≤ c.toNat ∧ c.toNat ≤ 57))

/-- Parse the entries of the codes object after its opening brace:
either an immediate closing brace, or `"key": "bits"` entries joined
with `", "` and a closing brace.  `fuel` bounds the entry count (the
input length always suffices). -/
def parseEntriesAux (fuel : Nat) (s : List Char) :
    Option (List (String × BitStr) × List Char) :=
  match expectChars [rbrace] s with
  | some rest => some ([], rest)
  | none => parseEntryList fuel s
where
  parseEntryList : Nat → List Char → Option (List (String × BitStr) × List Char)
  | 0, _ => none
  | fuel + 1, s =>
    match expectChars ['\"'] s with
    | none => none
    | some s1 =>
      match parseStringBody s1 with
      | none => none
      | some (key, s2) =>
        match expectChars [':', ' ', '\"'] s2 with
        | none => none
        | some s3 =>
          match parseStringBody s3 with
          | none => none
          | some (valChars, s4) =>
            match charsToBits valChars with
            | none => none
            | some bits =>
              match expectChars [rbrace] s4 with
              | some rest => some ([(⟨key⟩, bits)], rest)
              | none =>
                match expectChars [',', ' '] s4 with
                | none => none
                | some s5 =>
                  match parseEntryList fuel s5 with
                  | none => none
                  | some (entries, rest) =>
                    some ((⟨key⟩, bits) :: entries, rest)

/-- The parsed header: the code table and the `padding` field when
present (`decompress_file` defaults an absent `padding` to 0 via
`header.get('padding', 0)`). -/
structure Header where
  codes : List (String × BitStr)
  padding : Option Nat
deriving DecidableEq, Repr

/-- Parse the header text `json.loads` receives, restricted to the
grammar the encoder emits: `\x7b"codes": \x7b...\x7d\x7d` with an
optional `, "padding": n` member before the final brace.  Any other text
is a parse failure (`ValueError` from `json.loads` on the byte strings
the claims exercise). -/
def parseHeader (s : List Char) : Option Header :=
  match expectChars (lbrace :: quoteChars "codes".data ++ [':', ' ', lbrace]) s with
  | none => none
  | some s1 =>
    match parseEntriesAux s1.length s1 with
    | none => none
    | some (codes, s2) =>
      match expectChars [rbrace] s2 with
      | some [] => some ⟨codes, none⟩
      | some _ => none
      | none =>
        match expectChars (',' :: ' ' :: quoteChars "padding".data ++ [':', ' ']) s2 with
        | none => none
        | some s3 =>
          match parseNatChars s3 with
          | none => none
          | some (n, s4) =>
            match s4 with
            | [rb] => if rb = rbrace then some ⟨codes, some n⟩ else none
            | _ => none

/-- UTF-8 encoding of one character (`str.encode('utf-8')`). -/
def utf8EncodeChar (c : Char) : List Byte :=
  let n := c.toNat
  if n < 128 then [n]
  else if n < 2048 then [192 + n / 64, 128 + n % 64]
  else if n < 65536 then [224 + n / 4096, 128 + n / 64 % 64, 128 + n % 64]
  else [240 + n / 262144, 128 + n / 4096 % 64, 128 + n / 64 % 64, 128 + n % 64]

/-- UTF-8 encoding of a character sequence. -/
def utf8Encode (s : List Char) : List Byte :=
  (s.map utf8EncodeChar).flatten

/-- Whether a byte is a UTF-8 continuation byte (10xxxxxx). -/
def isCont (b : Nat) : Bool :=
  decide (128 ≤ b) && decide (b < 192)

/-- One step of UTF-8 decoding: given the lead byte and the remaining
bytes, produce the code point and the bytes after the sequence,
rejecting malformed, overlong, surrogate and out-of-range sequences as
Python does. -/
def utf8Step (b : Byte) (rest : List Byte) : Option (Nat × List Byte) :=
  if b < 128 then some (b, rest)
  else if b < 192 then none
  else if b < 224 then
    match rest with
    | b2 :: rest2 =>
      if isCont b2 then
        let n := (b - 192) * 64 + (b2 - 128)
        if n < 128 then none else some (n, rest2)
      else none
    | _ => none
  else if b < 240 then
    match rest with
    | b2 :: b3 :: rest2 =>
      if isCont b2 && isCont b3 then
        let n := (b - 224) * 4096 + (b2 - 128) * 64 + (b3 - 128)
        if n < 2048 ∨ (55296 ≤ n ∧ n < 57344) then none else some (n, rest2)
      else none
    | _ => none
  else if b < 248 then
    match rest with
    | b2 :: b3 :: b4 :: rest2 =>
      if isCont b2 && isCont b3 && isCont b4 then
        let n := (b - 240) * 262144 + (b2 - 128) * 4096 +
          (b3 - 128) * 64 + (b4 - 128)
        if n < 65536 ∨ 1114111 < n then none else some (n, rest2)
      else none
    | _ => none
  else none

/-- Fuelled UTF-8 decoding loop: decode one sequence per unit of fuel
with `utf8Step`.  Every step consumes at least one byte, so fuel equal
to the byte count always suffices. -/
def utf8DecodeAux : Nat → List Byte → Option (List Char)
  | _, [] => some []
  | 0, _ :: _ => none
  | fuel + 1, b :: rest =>
    match utf8Step b rest with
    | none => none
    | some (n, rest2) =>
      (utf8DecodeAux fuel rest2).map (fun s => Char.ofNat n :: s)

/-- UTF-8 decoding (`bytes.decode('utf-8')`); returns `none` on failure
(a `ValueError` at the call site). -/
def utf8Decode (l : List Byte) : Option (List Char) :=
  utf8DecodeAux l.length l

/-- `n.to_bytes(4, byteorder='big')`: raises `OverflowError` when `n`
does not fit in four bytes. -/
def toBytesBE4 (n : Nat) : Except Err (List Byte) :=
  if n < 4294967296 then
    .ok [n / 16777216 % 256, n / 65536 % 256, n / 256 % 256, n % 256]
  else .error .overflowError

/-- `int.from_bytes(bs, byteorder='big')`. -/
def fromBytesBE (bs : List Byte) : Nat :=
  bs.foldl (fun a b => 256 * a + b) 0

/-- `write_huff_file`: 4-byte big-endian header length, then the UTF-8
JSON header, then the payload; the result is the byte content of the
output file. -/
def write_huff_file (codes : List (String × BitStr)) (payload : List Byte)
    (padding : Nat) : Except Err (List Byte) :=
  let headerBytes := utf8Encode (dumpHeader codes padding)
  match toBytesBE4 headerBytes.length with
  | .error e => .error e
  | .ok lenB => .ok (lenB ++ headerBytes ++ payload)

/-- `read_huff_file`: fail unless 4 length bytes are present, read up to
`header_len` bytes of header (`f.read` returns what is available), parse
them as UTF-8 JSON, and return the header with the remaining bytes as
payload. -/
def read_huff_file (file : List Byte) : Except Err (Header × List Byte) :=
  if file.length < 4 then
    .error (.valueError "Not a valid .huff file (missing header length)")
  else
    let headerLen := fromBytesBE (file.take 4)
    let rest := file.drop 4
    let headerBytes := rest.take headerLen
    let payload := rest.drop headerLen
    match utf8Decode headerBytes with
    | none => .error (.valueError "header decode failed")
    | some chars =>
      match parseHeader chars with
      | none => .error (.valueError "header decode failed")
      | some h => .ok (h, payload)

/-- The reverse map `\x7bv: k for k, v in codes.items()\x7d`. -/
def buildRev (codes : List (String × BitStr)) : List (BitStr × String) :=
  codes.foldl (fun rev kv => dictInsert rev kv.2 kv.1) []

/-- The bit-consuming loop of `decode_bits_to_text`: grow `cur` one bit
at a time, emit a symbol and reset whenever `cur` is a key of the
reverse map; leftover bits at the end raise a `ValueError`. -/
def decodeLoop (rev : List (BitStr × String)) :
    BitStr → BitStr → Except Err (List Char)
  | cur, [] =>
    if cur = [] then .ok []
    else .error (.valueError "Decoding error: leftover bits after decoding")
  | cur, b :: bs =>
    let cur2 := cur ++ [b]
    match List.lookup cur2 rev with
    | some sym =>
      match decodeLoop rev [] bs with
      | .error e => .error e
      | .ok out => .ok (sym.data ++ out)
    | none => decodeLoop rev cur2 bs

/-- `decode_bits_to_text`: strip the final `padding` bits (`bits[:-p]`
when `p` is truthy), build the reverse map and run the greedy matcher. -/
def decode_bits_to_text (bits : BitStr) (codes : List (String × BitStr))
    (padding : Nat) : Except Err (List Char) :=
  let bits := if padding = 0 then bits else bits.take (bits.length - padding)
  decodeLoop (buildRev codes) [] bits

/-- `compress_file` without the file handles and statistics printing: the
pipeline from text to container bytes. -/
def compress (text : List Char) (ids : Nat → Nat) : Except Err (List Byte) :=
  let freq_map := build_frequency_map text
  let root := build_huffman_tree freq_map ids
  let codes := generate_codes root
  match encode_text text codes with
  | .error e => .error e
  | .ok bitstring =>
    let pb := bits_to_bytes bitstring
    write_huff_file codes pb.1 pb.2

/-- `decompress_file` without the file handles: container bytes back to
text. -/
def decompress (file : List Byte) : Except Err (List Char) :=
  match read_huff_file file with
  | .error e => .error e
  | .ok (header, payload) =>
    let codes := header.codes
    let padding := header.padding.getD 0
    let bits := bytes_to_bits payload
    decode_bits_to_text bits codes padding

/-! ## Association-list lemmas -/

theorem lookup_cons {α β : Type} [BEq α] [LawfulBEq α] (k k' : α) (v : β)
    (d : List (α × β)) :
    List.lookup k ((k', v) :: d) =
      if k == k' then some v else List.lookup k d := by
  rw [List.lookup]
  cases h : k == k' <;> simp

theorem lookup_isSome_iff {α β : Type} [BEq α] [LawfulBEq α]
    (d : List (α × β)) (k : α) :
    (List.lookup k d).isSome ↔ k ∈ d.map Prod.fst := by
  induction d with
  | nil => simp [List.lookup]
  | cons e rest ih =>
    obtain ⟨k', v'⟩ := e
    rw [lookup_cons]
    cases hbe : k == k' with
    | true =>
      have hk : k = k' := eq_of_beq hbe
      simp [hbe, hk]
    | false =>
      have hk : k ≠ k' := by
        intro hc
        rw [hc] at hbe
        simp at hbe
      simp [hbe, hk, ih]

theorem lookup_mem {α β : Type} [BEq α] [LawfulBEq α] {d : List (α × β)}
    {k : α} {v : β} (h : List.lookup k d = some v) : (k, v) ∈ d := by
  induction d with
  | nil => simp [List.lookup] at h
  | cons e rest ih =>
    obtain ⟨k', v'⟩ := e
    rw [lookup_cons] at h
    cases hbe : k == k' with
    | true =>
      have hk : k = k' := eq_of_beq hbe
      rw [hbe] at h
      simp at h
      simp [hk, h]
    | false =>
      rw [hbe] at h
      simp at h
      exact List.mem_cons_of_mem _ (ih h)

theorem mem_lookup {α β : Type} [BEq α] [LawfulBEq α] {d : List (α × β)}
    {k : α} {v : β} (hnd : (d.map Prod.fst).Nodup) (h : (k, v) ∈ d) :
    List.lookup k d = some v := by
  induction d with
  | nil => simp at h
  | cons e rest ih =>
    obtain ⟨k', v'⟩ := e
    rw [List.map_cons, List.nodup_cons] at hnd
    rw [lookup_cons]
    rcases List.mem_cons.mp h with h1 | h1
    · cases h1
      simp
    · have hne : k ≠ k' := by
        rintro rfl
        exact hnd.1 (List.mem_map.mpr ⟨(k, v), h1, rfl⟩)
      have hbe : (k == k') = false := by
        cases hc : k == k' with
        | true => exact absurd (eq_of_beq hc) hne
        | false => rfl
      rw [hbe]
      simp
      exact ih hnd.2 h1

/-! ## C9: the frequency counter -/

theorem bumpFreq_keys {d : List (Char × Nat)} {c : Char} :
    (bumpFreq d c).map Prod.fst =
      if c ∈ d.map Prod.fst then d.map Prod.fst else d.map Prod.fst ++ [c] := by
  induction d with
  | nil => simp [bumpFreq]
  | cons e rest ih =>
    obtain ⟨k, v⟩ := e
    by_cases h : k = c
    · subst h
      simp [bumpFreq]
    · have h' : ¬(c = k) := fun hc => h hc.symm
      by_cases hm : c ∈ rest.map Prod.fst <;>
        simp [bumpFreq, h, h', hm, ih]

theorem bumpFreq_lookup_self (d : List (Char × Nat)) (c : Char) :
    List.lookup c (bumpFreq d c) = some ((List.lookup c d).getD 0 + 1) := by
  induction d with
  | nil => simp [bumpFreq, List.lookup]
  | cons e rest ih =>
    obtain ⟨k, v⟩ := e
    by_cases h : k = c
    · subst h
      simp [bumpFreq, lookup_cons]
    · have h' : ¬(c = k) := fun hc => h hc.symm
      simp [bumpFreq, h, h', lookup_cons, ih]

theorem bumpFreq_lookup_other {d : List (Char × Nat)} {c c' : Char}
    (h : c' ≠ c) : List.lookup c' (bumpFreq d c) = List.lookup c' d := by
  induction d with
  | nil => simp [bumpFreq, List.lookup, beq_false_of_ne h]
  | cons e rest ih =>
    obtain ⟨k, v⟩ := e
    by_cases hk : k = c
    · subst hk
      simp [bumpFreq, lookup_cons, h]
    · by_cases hk' : c' = k <;> simp [bumpFreq, hk, hk', lookup_cons, ih]

theorem foldl_bumpFreq_lookup (t : List Char) (d : List (Char × Nat)) (c : Char) :
    List.lookup c (List.foldl bumpFreq d t) =
      if (List.lookup c d).isSome ∨ c ∈ t then
        some ((List.lookup c d).getD 0 + t.count c)
      else none := by
  induction t generalizing d with
  | nil =>
    cases hl : List.lookup c d with
    | none => simp [hl]
    | some v => simp [hl]
  | cons a t' ih =>
    rw [List.foldl_cons, ih]
    by_cases hca : c = a
    · subst hca
      simp [bumpFreq_lookup_self, List.count_cons]
      omega
    · rw [bumpFreq_lookup_other hca]
      have hcount : List.count c (a :: t') = List.count c t' := by
        simp [List.count_cons, hca]
      by_cases h1 : (List.lookup c d).isSome = true ∨ c ∈ t'
      · have h2 : (List.lookup c d).isSome = true ∨ c ∈ a :: t' := by
          rcases h1 with h | h
          · exact Or.inl h
          · exact Or.inr (List.mem_cons_of_mem _ h)
        rw [if_pos h1, if_pos h2, hcount]
      · have h2 : ¬((List.lookup c d).isSome = true ∨ c ∈ a :: t') := by
          rintro (h | h)
          · exact h1 (Or.inl h)
          · rcases List.mem_cons.mp h with h3 | h3
            · exact hca h3
            · exact h1 (Or.inr h3)
        rw [if_neg h1, if_neg h2]

/-- The lookup characterization of `build_frequency_map`: a present
symbol maps to its occurrence count, an absent one to nothing. -/
theorem build_frequency_map_lookup (t : List Char) (c : Char) :
    List.lookup c (build_frequency_map t) =
      if c ∈ t then some (t.count c) else none := by
  rw [build_frequency_map, foldl_bumpFreq_lookup]
  simp [List.lookup]

theorem foldl_bumpFreq_keys_nodup (t : List Char) (d : List (Char × Nat))
    (hd : (d.map Prod.fst).Nodup) :
    ((List.foldl bumpFreq d t).map Prod.fst).Nodup := by
  induction t generalizing d with
  | nil => exact hd
  | cons a t' ih =>
    rw [List.foldl_cons]
    refine ih _ ?_
    rw [bumpFreq_keys]
    by_cases h : a ∈ d.map Prod.fst
    · simpa [h] using hd
    · simp [h, List.nodup_append, hd]

theorem build_frequency_map_keys_nodup (t : List Char) :
    ((build_frequency_map t).map Prod.fst).Nodup :=
  foldl_bumpFreq_keys_nodup t [] (by simp)

theorem build_frequency_map_mem_keys (t : List Char) (c : Char) :
    c ∈ (build_frequency_map t).map Prod.fst ↔ c ∈ t := by
  rw [← lookup_isSome_iff, build_frequency_map_lookup]
  by_cases h : c ∈ t <;> simp [h]

theorem bumpFreq_sum (d : List (Char × Nat)) (c : Char) :
    ((bumpFreq d c).map Prod.snd).sum = (d.map Prod.snd).sum + 1 := by
  induction d with
  | nil => simp [bumpFreq]
  | cons e rest ih =>
    obtain ⟨k, v⟩ := e
    by_cases h : k = c
    · simp [bumpFreq, h]
      omega
    · simp [bumpFreq, h, ih]
      omega

theorem foldl_bumpFreq_sum (t : List Char) (d : List (Char × Nat)) :
    ((List.foldl bumpFreq d t).map Prod.snd).sum =
      (d.map Prod.snd).sum + t.length := by
  induction t generalizing d with
  | nil => simp
  | cons a t' ih =>
    rw [List.foldl_cons, ih, bumpFreq_sum]
    simp
    omega

theorem build_frequency_map_sum (t : List Char) :
    ((build_frequency_map t).map Prod.snd).sum = t.length := by
  simpa using foldl_bumpFreq_sum t []

theorem build_frequency_map_count_pos (t : List Char) (c : Char) (n : Nat)
    (h : (c, n) ∈ build_frequency_map t) : 0 < n := by
  have hl := mem_lookup (build_frequency_map_keys_nodup t) h
  rw [build_frequency_map_lookup] at hl
  by_cases hc : c ∈ t
  · simp [hc] at hl
    subst hl
    exact List.count_pos_iff.mpr hc
  · simp [hc] at hl

/-- C9: `build_frequency_map` returns a table whose keys are exactly the
distinct symbols present (no duplicates), whose counts are positive (so
in particular non-negative) and sum to the input length, whose content
as a mapping is independent of symbol order, and which is empty on empty
input. -/
theorem claim_C9_frequency_counter (t : List Char) :
    ((build_frequency_map t).map Prod.fst).Nodup ∧
    (∀ c, c ∈ (build_frequency_map t).map Prod.fst ↔ c ∈ t) ∧
    (∀ e ∈ build_frequency_map t, 0 < e.2) ∧
    ((build_frequency_map t).map Prod.snd).sum = t.length ∧
    (∀ t' : List Char, t.Perm t' → ∀ c : Char,
      List.lookup c (build_frequency_map t) =
        List.lookup c (build_frequency_map t')) ∧
    build_frequency_map [] = [] := by
  refine ⟨build_frequency_map_keys_nodup t, build_frequency_map_mem_keys t,
    ?_, build_frequency_map_sum t, ?_, rfl⟩
  · intro e he
    exact build_frequency_map_count_pos t e.1 e.2 he
  · intro t' hp c
    rw [build_frequency_map_lookup, build_frequency_map_lookup,
      hp.count_eq c]
    by_cases h : c ∈ t
    · rw [if_pos h, if_pos (hp.mem_iff.mp h)]
    · rw [if_neg h, if_neg (fun hc => h (hp.mem_iff.mpr hc))]

/-- Witness for C9: the order-independence conjunct applied to a
concrete permutation. -/
theorem claim_C9_frequency_counter_witness :
    List.lookup 'a' (build_frequency_map ['a', 'b', 'a']) =
      List.lookup 'a' (build_frequency_map ['b', 'a', 'a']) :=
  (claim_C9_frequency_counter ['a', 'b', 'a']).2.2.2.2.1
    ['b', 'a', 'a'] (by decide) 'a'

/-! ## C6: bit packing and unpacking -/

theorem bitsOfByte_byteOfBits_tuple :
    ∀ b1 b2 b3 b4 b5 b6 b7 b8 : Bool,
      bitsOfByte (byteOfBits [b1, b2, b3, b4, b5, b6, b7, b8]) =
        [b1, b2, b3, b4, b5, b6, b7, b8] := by
  decide

theorem bitsOfByte_byteOfBits {l : BitStr} (hl : l.length = 8) :
    bitsOfByte (byteOfBits l) = l := by
  rcases l with _ | ⟨b1, l⟩
  · simp at hl
  rcases l with _ | ⟨b2, l⟩
  · simp at hl
  rcases l with _ | ⟨b3, l⟩
  · simp at hl
  rcases l with _ | ⟨b4, l⟩
  · simp at hl
  rcases l with _ | ⟨b5, l⟩
  · simp at hl
  rcases l with _ | ⟨b6, l⟩
  · simp at hl
  rcases l with _ | ⟨b7, l⟩
  · simp at hl
  rcases l with _ | ⟨b8, l⟩
  · simp at hl
  rcases l with _ | ⟨b9, l⟩
  · exact bitsOfByte_byteOfBits_tuple b1 b2 b3 b4 b5 b6 b7 b8
  · simp at hl

theorem chunk8Aux_mono :
    ∀ (f1 : Nat) (l : BitStr) (f2 : Nat), l.length ≤ f1 → l.length ≤ f2 →
      chunk8Aux f1 l = chunk8Aux f2 l := by
  intro f1
  induction f1 with
  | zero =>
    intro l f2 h1 _
    have hl : l = [] := List.eq_nil_of_length_eq_zero (by omega)
    subst hl
    cases f2 <;> rfl
  | succ f1 ih =>
    intro l f2 h1 h2
    match l with
    | [] => cases f2 <;> rfl
    | b :: rest =>
      match f2 with
      | 0 => simp at h2
      | f2 + 1 =>
        show byteOfBits ((b :: rest).take 8) ::
            chunk8Aux f1 ((b :: rest).drop 8) =
          byteOfBits ((b :: rest).take 8) ::
            chunk8Aux f2 ((b :: rest).drop 8)
        congr 1
        have hlen : ((b :: rest).drop 8).length = rest.length + 1 - 8 := by
          simp
        exact ih _ _
          (by simp only [List.length_drop, List.length_cons]
              simp only [List.length_cons] at h1
              omega)
          (by simp only [List.length_drop, List.length_cons]
              simp only [List.length_cons] at h2
              omega)

theorem chunk8_cons (b : Bool) (rest : BitStr) :
    chunk8 (b :: rest) =
      byteOfBits ((b :: rest).take 8) :: chunk8 ((b :: rest).drop 8) := by
  have h1 : chunk8 (b :: rest) =
      byteOfBits ((b :: rest).take 8) ::
        chunk8Aux rest.length ((b :: rest).drop 8) := rfl
  rw [h1]
  congr 1
  unfold chunk8
  exact chunk8Aux_mono rest.length _ _
    (by simp only [List.length_drop, List.length_cons]; omega) (le_refl _)

theorem chunk8_roundtrip_fuel :
    ∀ (n : Nat) (bits : BitStr), bits.length ≤ n → bits.length % 8 = 0 →
      bytes_to_bits (chunk8 bits) = bits := by
  intro n
  induction n with
  | zero =>
    intro bits hle _
    have hb : bits = [] := List.eq_nil_of_length_eq_zero (by omega)
    subst hb
    rfl
  | succ n ih =>
    intro bits hle hlen
    match bits with
    | [] => rfl
    | b :: rest =>
      rw [chunk8_cons]
      have h8 : 8 ≤ (b :: rest).length := by
        have h1 : (b :: rest).length = rest.length + 1 := by simp
        omega
      have htake : ((b :: rest).take 8).length = 8 := by
        rw [List.length_take]
        omega
      have hdropmod : ((b :: rest).drop 8).length % 8 = 0 := by
        rw [List.length_drop]
        omega
      have hdrople : ((b :: rest).drop 8).length ≤ n := by
        rw [List.length_drop]
        simp at hle ⊢
        omega
      calc bytes_to_bits (byteOfBits ((b :: rest).take 8) ::
              chunk8 ((b :: rest).drop 8))
          = bitsOfByte (byteOfBits ((b :: rest).take 8)) ++
              bytes_to_bits (chunk8 ((b :: rest).drop 8)) := by
            simp [bytes_to_bits]
        _ = (b :: rest).take 8 ++ (b :: rest).drop 8 := by
            rw [bitsOfByte_byteOfBits htake, ih _ hdrople hdropmod]
        _ = b :: rest := List.take_append_drop 8 (b :: rest)

theorem chunk8_roundtrip (bits : BitStr) :
    bits.length % 8 = 0 → bytes_to_bits (chunk8 bits) = bits :=
  chunk8_roundtrip_fuel bits.length bits (le_refl _)

theorem chunk8_roundtrip_apply (bits : BitStr) (h : bits.length % 8 = 0) :
    bytes_to_bits (chunk8 bits) = bits := chunk8_roundtrip bits h

theorem bits_to_bytes_pad_le (b : BitStr) : (bits_to_bytes b).2 ≤ 7 := by
  have hpad : (bits_to_bytes b).2 = (8 - b.length % 8) % 8 := rfl
  rw [hpad]
  omega

theorem bits_to_bytes_unpack (b : BitStr) :
    bytes_to_bits (bits_to_bytes b).1 =
      b ++ List.replicate (bits_to_bytes b).2 false := by
  have hpad : (bits_to_bytes b).2 = (8 - b.length % 8) % 8 := rfl
  have hlen : (b ++ List.replicate ((8 - b.length % 8) % 8) false).length % 8 = 0 := by
    simp [List.length_append, List.length_replicate]
    omega
  rw [hpad]
  exact chunk8_roundtrip _ hlen

theorem bits_to_bytes_strip (b : BitStr) :
    (bytes_to_bits (bits_to_bytes b).1).take
      ((bytes_to_bits (bits_to_bytes b).1).length - (bits_to_bytes b).2) = b := by
  rw [bits_to_bytes_unpack]
  have h1 : (b ++ List.replicate (bits_to_bytes b).2 false).length -
      (bits_to_bytes b).2 = b.length := by
    simp [List.length_append, List.length_replicate]
  rw [h1]
  exact List.take_left' rfl

/-- C6: `bits_to_bytes` always returns a padding count in `[0, 7]`, and
unpacking the returned bytes yields the input bitstring followed by
exactly `padding` zero bits, so stripping the last `padding` bits
reproduces the input exactly. -/
theorem claim_C6_padding_bounds (b : BitStr) :
    (bits_to_bytes b).2 ≤ 7 ∧
    bytes_to_bits (bits_to_bytes b).1 =
      b ++ List.replicate (bits_to_bytes b).2 false ∧
    (bytes_to_bits (bits_to_bytes b).1).take
      ((bytes_to_bits (bits_to_bytes b).1).length - (bits_to_bytes b).2) = b :=
  ⟨bits_to_bytes_pad_le b, bits_to_bytes_unpack b, bits_to_bytes_strip b⟩

/-! ## Tree structure lemmas -/

/-- The symbols of the leaves of a tree, in depth-first left-to-right
order. -/
def Node.symbols : Node → List String
  | .leaf _ _ s => [s]
  | .internal _ _ l r => l.symbols ++ r.symbols

/-- The entry list `generate_codes` produces, structurally: each leaf
contributes its root path (with the empty path replaced by the one-bit
code 0). -/
def Node.paths : Node → BitStr → List (String × BitStr)
  | .leaf _ _ s, p => [(s, if p = [] then [false] else p)]
  | .internal _ _ l r, p => l.paths (p ++ [false]) ++ r.paths (p ++ [true])

theorem paths_map_fst (t : Node) (p : BitStr) :
    (t.paths p).map Prod.fst = t.symbols := by
  induction t generalizing p with
  | leaf f i s => simp [Node.paths, Node.symbols]
  | internal f i l r ihl ihr => simp [Node.paths, Node.symbols, ihl, ihr]

theorem genDfs_eq_foldl (t : Node) (p : BitStr) (d : List (String × BitStr)) :
    genDfs t p d = (t.paths p).foldl (fun d kv => dictInsert d kv.1 kv.2) d := by
  induction t generalizing p d with
  | leaf f i s => simp [genDfs, Node.paths]
  | internal f i l r ihl ihr =>
    simp [genDfs, Node.paths, List.foldl_append, ihl, ihr]

theorem dictInsert_keys_not_mem {α β : Type} [DecidableEq α]
    {d : List (α × β)} {k : α} (v : β) (h : k ∉ d.map Prod.fst) :
    dictInsert d k v = d ++ [(k, v)] := by
  induction d with
  | nil => simp [dictInsert]
  | cons e rest ih =>
    obtain ⟨k', v'⟩ := e
    have h1 : k ≠ k' := fun hc => h (by simp [hc])
    have h2 : k ∉ rest.map Prod.fst := fun hc => h (by simp [hc])
    simp [dictInsert, Ne.symm h1, ih h2]

theorem foldl_dictInsert_fresh {α β : Type} [DecidableEq α] (l d : List (α × β))
    (hn : (l.map Prod.fst).Nodup)
    (hd : ∀ k ∈ l.map Prod.fst, k ∉ d.map Prod.fst) :
    l.foldl (fun d kv => dictInsert d kv.1 kv.2) d = d ++ l := by
  induction l generalizing d with
  | nil => simp
  | cons e rest ih =>
    obtain ⟨k, v⟩ := e
    rw [List.map_cons, List.nodup_cons] at hn
    have hk : k ∉ d.map Prod.fst := hd k (by simp)
    rw [List.foldl_cons]
    have h1 : dictInsert d k v = d ++ [(k, v)] := dictInsert_keys_not_mem v hk
    rw [h1, ih (d ++ [(k, v)]) hn.2]
    · simp
    · intro k' hk'
      simp only [List.map_append, List.mem_append]
      rintro (h2 | h2)
      · exact hd k' (by simp [hk']) h2
      · simp at h2
        subst h2
        exact hn.1 hk'

theorem generate_codes_eq_paths (root : Node) (h : root.symbols.Nodup) :
    generate_codes (some root) = root.paths [] := by
  rw [generate_codes, genDfs_eq_foldl,
    foldl_dictInsert_fresh _ _ (by rw [paths_map_fst]; exact h) (by simp)]
  simp

theorem popMin_eq_none {l : List Node} : popMin l = none ↔ l = [] := by
  cases l with
  | nil => simp [popMin]
  | cons n ns =>
    simp only [popMin]
    cases popMin ns with
    | none => simp
    | some p =>
      obtain ⟨m, rest⟩ := p
      by_cases h : Node.lt m n <;> simp [h]

theorem popMin_perm : ∀ {l : List Node} {m : Node} {r : List Node},
    popMin l = some (m, r) → l.Perm (m :: r) := by
  intro l
  induction l with
  | nil => simp [popMin]
  | cons n ns ih =>
    intro m r h
    simp only [popMin] at h
    split at h
    · next hp =>
      simp at h
      obtain ⟨rfl, rfl⟩ := h
      have : ns = [] := popMin_eq_none.mp hp
      subst this
      exact List.Perm.refl _
    · next m' rest hp =>
      split at h
      · simp at h
        obtain ⟨rfl, rfl⟩ := h
        exact ((ih hp).cons n).trans (List.Perm.swap m' n rest)
      · simp at h
        obtain ⟨rfl, rfl⟩ := h
        exact List.Perm.refl _

/-- All leaf symbols in a heap, concatenated. -/
def heapSyms (heap : List Node) : List String :=
  (heap.map Node.symbols).flatten

theorem heapSyms_perm {h1 h2 : List Node} (h : h1.Perm h2) :
    (heapSyms h1).Perm (heapSyms h2) :=
  (h.map Node.symbols).flatten

theorem buildLoop_symbols (ids : Nat → Nat) :
    ∀ (fuel ctr : Nat) (heap : List Node) (root : Node),
      heap.length ≤ fuel + 1 →
      buildLoop ids fuel ctr heap = some root →
      root.symbols.Perm (heapSyms heap) := by
  intro fuel
  induction fuel with
  | zero =>
    intro ctr heap root hlen h
    simp only [buildLoop] at h
    cases hp : popMin heap with
    | none => rw [hp] at h; simp at h
    | some p =>
      obtain ⟨m, rest⟩ := p
      rw [hp] at h
      simp at h
      subst h
      have hperm := popMin_perm hp
      have hrest : rest = [] := by
        have := hperm.length_eq
        simp at this
        have h0 : rest.length = 0 := by omega
        exact List.length_eq_zero.mp h0
      subst hrest
      have hp2 := heapSyms_perm hperm
      have he : heapSyms [m] = m.symbols := by simp [heapSyms]
      rw [he] at hp2
      exact hp2.symm
  | succ fuel ih =>
    intro ctr heap root hlen h
    rw [buildLoop] at h
    split at h
    · simp at h
    · next a rest1 hp1 =>
      split at h
      · next hp2 =>
        simp at h
        subst h
        have hrest : rest1 = [] := popMin_eq_none.mp hp2
        subst hrest
        have hperm := popMin_perm hp1
        have hsp := heapSyms_perm hperm
        have he : heapSyms [a] = a.symbols := by simp [heapSyms]
        rw [he] at hsp
        exact hsp.symm
      · next b rest2 hp2 =>
        have hperm1 := popMin_perm hp1
        have hperm2 := popMin_perm hp2
        have hlen2 : (rest2 ++ [Node.internal (a.freq + b.freq) (ids ctr) a b]).length ≤ fuel + 1 := by
          have e1 := hperm1.length_eq
          have e2 := hperm2.length_eq
          simp at e1 e2 ⊢
          omega
        have hrec := ih (ctr + 1) _ root hlen2 h
        refine hrec.trans ?_
        have e1 : heapSyms (rest2 ++ [Node.internal (a.freq + b.freq) (ids ctr) a b]) =
            heapSyms rest2 ++ (a.symbols ++ b.symbols) := by
          simp [heapSyms, Node.symbols]
        rw [e1]
        have s1 : (heapSyms rest2 ++ (a.symbols ++ b.symbols)).Perm
            (a.symbols ++ (b.symbols ++ heapSyms rest2)) := by
          have : (heapSyms rest2 ++ (a.symbols ++ b.symbols)).Perm
              ((a.symbols ++ b.symbols) ++ heapSyms rest2) :=
            List.perm_append_comm
          simpa using this
        refine s1.trans ?_
        have s2 : (b.symbols ++ heapSyms rest2).Perm (heapSyms rest1) := by
          have e2 : heapSyms (b :: rest2) = b.symbols ++ heapSyms rest2 := by
            simp [heapSyms]
          have := (heapSyms_perm hperm2).symm
          rw [e2] at this
          exact this
        have s3 : (a.symbols ++ heapSyms rest1).Perm (heapSyms heap) := by
          have e3 : heapSyms (a :: rest1) = a.symbols ++ heapSyms rest1 := by
            simp [heapSyms]
          have := (heapSyms_perm hperm1).symm
          rw [e3] at this
          exact this
        exact (s2.append_left a.symbols).trans s3

theorem buildLoop_succ_eq (ids : Nat → Nat) (fuel ctr : Nat)
    (heap : List Node) (a : Node) (rest1 : List Node)
    (hp1 : popMin heap = some (a, rest1)) :
    buildLoop ids (fuel + 1) ctr heap =
      match popMin rest1 with
      | none => some a
      | some (b, rest2) =>
        buildLoop ids fuel (ctr + 1)
          (rest2 ++ [Node.internal (a.freq + b.freq) (ids ctr) a b]) := by
  rw [buildLoop, hp1]

theorem buildLoop_isSome (ids : Nat → Nat) :
    ∀ (fuel ctr : Nat) (heap : List Node), heap ≠ [] →
      ∃ root, buildLoop ids fuel ctr heap = some root := by
  intro fuel
  induction fuel with
  | zero =>
    intro ctr heap hne
    cases hp : popMin heap with
    | none => exact absurd (popMin_eq_none.mp hp) hne
    | some p => exact ⟨p.1, by simp [buildLoop, hp]⟩
  | succ fuel ih =>
    intro ctr heap hne
    cases hp1 : popMin heap with
    | none => exact absurd (popMin_eq_none.mp hp1) hne
    | some p1 =>
      obtain ⟨a, rest1⟩ := p1
      rw [buildLoop_succ_eq ids fuel ctr heap a rest1 hp1]
      cases hp2 : popMin rest1 with
      | none => exact ⟨a, rfl⟩
      | some p2 =>
        obtain ⟨b, rest2⟩ := p2
        exact ih (ctr + 1)
          (rest2 ++ [Node.internal (a.freq + b.freq) (ids ctr) a b]) (by simp)

theorem flatten_map_singleton {α β : Type} (l : List α) (g : α → β) :
    (l.map (fun x => [g x])).flatten = l.map g := by
  induction l with
  | nil => simp
  | cons a l ih => simp [ih]

/-- Existence and leaf-symbol content of the built tree: a one-entry
table yields the wrapped tree with the dummy empty-string leaf, a larger
table yields a tree whose leaves carry exactly the table keys (as
one-character strings). -/
theorem build_tree_spec (freq : List (Char × Nat)) (ids : Nat → Nat)
    (hne : freq ≠ []) :
    ∃ root, build_huffman_tree freq ids = some root ∧
      ((∃ k f, freq = [(k, f)] ∧
          root.symbols = [String.singleton k, ""]) ∨
       (2 ≤ freq.length ∧
          root.symbols.Perm (freq.map (fun p => String.singleton p.1)))) := by
  by_cases h1 : freq.length = 1
  · obtain ⟨e, rfl⟩ := List.length_eq_one.mp h1
    obtain ⟨k, f⟩ := e
    refine ⟨Node.internal f (ids 2)
      (Node.leaf f (ids 0) (String.singleton k)) (Node.leaf 0 (ids 1) ""), ?_, ?_⟩
    · rfl
    · exact Or.inl ⟨k, f, rfl, rfl⟩
  · have h2 : 2 ≤ freq.length := by
      have h0 : freq.length ≠ 0 := fun hc => hne (List.length_eq_zero.mp hc)
      omega
    have hheap : (freq.enum.map
        (fun p => Node.leaf p.2.2 (ids p.1) (String.singleton p.2.1))).length =
          freq.length := by
      simp
    have hne2 : freq.enum.map
        (fun p => Node.leaf p.2.2 (ids p.1) (String.singleton p.2.1)) ≠ [] := by
      intro hc
      rw [hc] at hheap
      simp at hheap
      omega
    obtain ⟨root, hroot⟩ := buildLoop_isSome ids
      (freq.enum.map (fun p => Node.leaf p.2.2 (ids p.1) (String.singleton p.2.1))).length
      (freq.enum.map (fun p => Node.leaf p.2.2 (ids p.1) (String.singleton p.2.1))).length
      _ hne2
    refine ⟨root, ?_, Or.inr ⟨h2, ?_⟩⟩
    · simp only [build_huffman_tree]
      rw [hheap, if_neg h1]
      rw [hheap] at hroot
      exact hroot
    · have hsym := buildLoop_symbols ids _ _ _ root (by omega) hroot
      refine hsym.trans (List.Perm.of_eq ?_)
      rw [heapSyms, List.map_map]
      have he : (Node.symbols ∘
          fun p => Node.leaf p.2.2 (ids p.1) (String.singleton p.2.1)) =
            fun p : Nat × (Char × Nat) => [String.singleton p.2.1] := by
        funext p
        simp [Node.symbols]
      rw [he, flatten_map_singleton]
      have : (fun p : Nat × (Char × Nat) => String.singleton p.2.1) =
          (fun q : Char × Nat => String.singleton q.1) ∘ Prod.snd := rfl
      rw [this, ← List.map_map, List.enum_map_snd]

theorem singleton_ne_empty (k : Char) : String.singleton k ≠ "" := by
  intro hc
  have := congrArg (fun s => s.data) hc
  simp [String.singleton] at this

theorem singleton_injective : Function.Injective String.singleton := by
  intro a b hab
  have := congrArg (fun s => s.data) hab
  simp [String.singleton] at this
  exact this

/-- Leafs of the built tree carry pairwise-distinct symbols whenever the
frequency table has pairwise-distinct keys. -/
theorem build_symbols_nodup {freq : List (Char × Nat)} {ids : Nat → Nat}
    {root : Node} (hb : build_huffman_tree freq ids = some root)
    (hne : freq ≠ []) (hnodup : (freq.map Prod.fst).Nodup) :
    root.symbols.Nodup := by
  obtain ⟨root', hb', hspec⟩ := build_tree_spec freq ids hne
  rw [hb] at hb'
  cases hb'
  rcases hspec with ⟨k, f, hfreq, hsym⟩ | ⟨h2, hperm⟩
  · rw [hsym]
    simp [singleton_ne_empty k]
  · refine hperm.nodup_iff.mpr ?_
    have : freq.map (fun p => String.singleton p.1) =
        (freq.map Prod.fst).map String.singleton := by
      rw [List.map_map]
      rfl
    rw [this]
    exact hnodup.map singleton_injective

/-! ## Prefix-freeness of generated code tables -/

/-- Pairwise mutual non-prefix relation on the values of an entry
list. -/
def PairwiseNP (l : List (String × BitStr)) : Prop :=
  l.Pairwise (fun a b => ¬ a.2 <+: b.2 ∧ ¬ b.2 <+: a.2)

theorem paths_value_prefree (t : Node) :
    ∀ (p : BitStr), p ≠ [] → ∀ kv ∈ t.paths p, p <+: kv.2 ∧ kv.2 ≠ [] := by
  induction t with
  | leaf f i s =>
    intro p hp kv hkv
    simp [Node.paths, hp] at hkv
    rcases hkv with rfl
    exact ⟨List.prefix_refl p, hp⟩
  | internal f i l r ihl ihr =>
    intro p hp kv hkv
    rw [Node.paths, List.mem_append] at hkv
    rcases hkv with hkv | hkv
    · obtain ⟨h1, h2⟩ := ihl (p ++ [false]) (by simp) kv hkv
      exact ⟨(List.prefix_append p [false]).trans h1, h2⟩
    · obtain ⟨h1, h2⟩ := ihr (p ++ [true]) (by simp) kv hkv
      exact ⟨(List.prefix_append p [true]).trans h1, h2⟩

theorem cross_not_prefree {q1 q2 v1 v2 : BitStr} (hne : q1 ≠ q2)
    (hlen : q1.length = q2.length) (h1 : q1 <+: v1) (h2 : q2 <+: v2) :
    ¬ v1 <+: v2 := by
  intro hv
  have hq1 : q1 <+: v2 := h1.trans hv
  have hq12 : q1 <+: q2 := List.prefix_of_prefix_length_le hq1 h2 (le_of_eq hlen)
  exact hne (List.IsPrefix.eq_of_length hq12 hlen)

theorem paths_pairwiseNP (t : Node) :
    ∀ (p : BitStr), p ≠ [] → PairwiseNP (t.paths p) := by
  induction t with
  | leaf f i s =>
    intro p hp
    simp [Node.paths, PairwiseNP]
  | internal f i l r ihl ihr =>
    intro p hp
    rw [Node.paths, PairwiseNP, List.pairwise_append]
    refine ⟨ihl (p ++ [false]) (by simp), ihr (p ++ [true]) (by simp), ?_⟩
    intro a ha b hb
    have hfa := paths_value_prefree l (p ++ [false]) (by simp) a ha
    have hfb := paths_value_prefree r (p ++ [true]) (by simp) b hb
    have hne2 : p ++ [false] ≠ p ++ [true] := by simp
    have hlen2 : (p ++ [false]).length = (p ++ [true]).length := by simp
    exact ⟨cross_not_prefree hne2 hlen2 hfa.1 hfb.1,
      cross_not_prefree (Ne.symm hne2) hlen2.symm hfb.1 hfa.1⟩

theorem root_pairwiseNP (t : Node) : PairwiseNP (t.paths []) := by
  cases t with
  | leaf f i s => simp [Node.paths, PairwiseNP]
  | internal f i l r =>
    rw [Node.paths, PairwiseNP, List.pairwise_append]
    refine ⟨paths_pairwiseNP l [false] (by simp),
      paths_pairwiseNP r [true] (by simp), ?_⟩
    intro a ha b hb
    have hfa := paths_value_prefree l [false] (by simp) a ha
    have hfb := paths_value_prefree r [true] (by simp) b hb
    have hne2 : [false] ≠ ([true] : BitStr) := by simp
    have hlen2 : ([false] : BitStr).length = ([true] : BitStr).length := by simp
    exact ⟨cross_not_prefree hne2 hlen2 hfa.1 hfb.1,
      cross_not_prefree (Ne.symm hne2) hlen2.symm hfb.1 hfa.1⟩

theorem root_paths_nonempty (t : Node) : ∀ kv ∈ t.paths [], kv.2 ≠ [] := by
  cases t with
  | leaf f i s =>
    intro kv hkv
    simp [Node.paths] at hkv
    rcases hkv with rfl
    simp
  | internal f i l r =>
    intro kv hkv
    rw [Node.paths, List.mem_append] at hkv
    rcases hkv with hkv | hkv
    · exact (paths_value_prefree l [false] (by simp) kv hkv).2
    · exact (paths_value_prefree r [true] (by simp) kv hkv).2

/-- C3: the code table generated from the tree built from any non-empty
frequency table (a mapping, so with pairwise-distinct keys) is
prefix-free: codes of distinct symbols are never prefixes of one
another. -/
theorem claim_C3_prefix_free (freq : List (Char × Nat)) (ids : Nat → Nat)
    (hne : freq ≠ []) (hnodup : (freq.map Prod.fst).Nodup) :
    ∀ (a b : String) (ca cb : BitStr),
      List.lookup a (generate_codes (build_huffman_tree freq ids)) = some ca →
      List.lookup b (generate_codes (build_huffman_tree freq ids)) = some cb →
      a ≠ b → ¬ ca <+: cb := by
  intro a b ca cb hla hlb hab
  obtain ⟨root, hb, _⟩ := build_tree_spec freq ids hne
  rw [hb] at hla hlb
  rw [generate_codes_eq_paths root (build_symbols_nodup hb hne hnodup)]
    at hla hlb
  have hma := lookup_mem hla
  have hmb := lookup_mem hlb
  have hne2 : (a, ca) ≠ (b, cb) := by
    intro hc
    exact hab (congrArg Prod.fst hc)
  have hsymm : Symmetric (fun x y : String × BitStr =>
      ¬ x.2 <+: y.2 ∧ ¬ y.2 <+: x.2) := by
    intro x y hxy
    exact ⟨hxy.2, hxy.1⟩
  exact ((root_pairwiseNP root).forall hsymm hma hmb hne2).1

/-- Witness for C3 on a two-symbol table. -/
theorem claim_C3_prefix_free_witness :
    List.lookup "a" (generate_codes
      (build_huffman_tree [('a', 1), ('b', 1)] (fun n => n))) = some [false] ∧
    ¬ ([false] : BitStr) <+: [true] := by
  refine ⟨by decide, ?_⟩
  exact claim_C3_prefix_free [('a', 1), ('b', 1)] (fun n => n)
    (by simp) (by decide) "a" "b" [false] [true]
    (by decide) (by decide) (by decide)

/-! ## Correctness of the greedy decoder -/

theorem decodeLoop_cons (rev : List (BitStr × String)) (cur : BitStr)
    (b : Bool) (bs : BitStr) :
    decodeLoop rev cur (b :: bs) =
      match List.lookup (cur ++ [b]) rev with
      | some sym =>
        match decodeLoop rev [] bs with
        | .error e => .error e
        | .ok out => .ok (sym.data ++ out)
      | none => decodeLoop rev (cur ++ [b]) bs := by
  rw [decodeLoop]

/-- Consuming one full codeword: while scanning the bits of the codeword
`pre ++ suffix`, no shorter non-empty prefix matches the reverse map,
and the full codeword resolves to `s`; the loop then emits `s` and
restarts on the remaining input. -/
theorem decodeLoop_code (rev : List (BitStr × String)) :
    ∀ (suffix pre : BitStr) (s : String) (rest : BitStr),
      suffix ≠ [] →
      List.lookup (pre ++ suffix) rev = some s →
      (∀ p, p <+: pre ++ suffix → p ≠ [] → p ≠ pre ++ suffix →
        List.lookup p rev = none) →
      decodeLoop rev pre (suffix ++ rest) =
        match decodeLoop rev [] rest with
        | .error e => .error e
        | .ok out => .ok (s.data ++ out) := by
  intro suffix
  induction suffix with
  | nil => intro pre s rest hne; exact absurd rfl hne
  | cons b suffix' ih =>
    intro pre s rest _ hfull hpre
    rw [List.cons_append, decodeLoop_cons]
    cases hsuf : suffix' with
    | nil =>
      subst hsuf
      rw [show pre ++ b :: ([] : BitStr) = pre ++ [b] by simp] at hfull
      rw [hfull]
      simp
    | cons b2 suffix2 =>
      have hre : pre ++ [b] ++ suffix' = pre ++ b :: suffix' := by simp
      have hprop : List.lookup (pre ++ [b]) rev = none := by
        apply hpre
        · rw [← hre]
          exact ⟨suffix', rfl⟩
        · simp
        · intro hc
          have := congrArg List.length hc
          simp [hsuf] at this
      rw [hprop]
      have hstep := ih (pre ++ [b]) s rest (by rw [hsuf]; simp)
        (by rw [hre]; exact hfull)
        (by
          intro p hp1 hp2 hp3
          rw [hre] at hp1 hp3
          exact hpre p hp1 hp2 hp3)
      rw [hsuf] at hstep
      simpa using hstep

/-- Decoding a concatenation of codewords: each item is a symbol whose
codeword resolves in the reverse map, is non-empty, and has no
strictly-shorter non-empty prefix in the map; the loop emits the
symbols in order. -/
theorem decodeLoop_concat (rev : List (BitStr × String)) :
    ∀ (items : List (String × BitStr)),
      (∀ kv ∈ items, kv.2 ≠ [] ∧ List.lookup kv.2 rev = some kv.1 ∧
        (∀ p, p <+: kv.2 → p ≠ [] → p ≠ kv.2 → List.lookup p rev = none)) →
      decodeLoop rev [] ((items.map Prod.snd).flatten) =
        .ok ((items.map (fun kv => kv.1.data)).flatten) := by
  intro items
  induction items with
  | nil => intro _; simp [decodeLoop]
  | cons kv items' ih =>
    intro hall
    obtain ⟨hne, hfull, hpre⟩ := hall kv (by simp)
    rw [List.map_cons, List.map_cons, List.flatten_cons, List.flatten_cons]
    have hstep := decodeLoop_code rev kv.2 [] kv.1 ((items'.map Prod.snd).flatten)
      hne (by simpa using hfull)
      (by
        intro p hp1 hp2 hp3
        simp at hp1 hp3
        exact hpre p hp1 hp2 hp3)
    simp only [List.nil_append] at hstep
    rw [hstep, ih (fun kv2 h2 => hall kv2 (List.mem_cons_of_mem _ h2))]

/-! ## The reverse code map -/

theorem PairwiseNP_values_nodup {l : List (String × BitStr)}
    (h : PairwiseNP l) : (l.map Prod.snd).Nodup := by
  rw [List.Nodup, List.pairwise_map]
  refine h.imp ?_
  intro a b hab hc
  exact hab.1 (hc ▸ List.prefix_refl a.2)

theorem buildRev_eq {codes : List (String × BitStr)}
    (h : (codes.map Prod.snd).Nodup) :
    buildRev codes = codes.map (fun kv => (kv.2, kv.1)) := by
  have h1 : buildRev codes =
      (codes.map (fun kv => (kv.2, kv.1))).foldl
        (fun d kv => dictInsert d kv.1 kv.2) [] := by
    rw [buildRev, List.foldl_map]
  rw [h1, foldl_dictInsert_fresh]
  · simp
  · have : (codes.map (fun kv => (kv.2, kv.1))).map Prod.fst =
        codes.map Prod.snd := by
      rw [List.map_map]
      rfl
    rw [this]
    exact h
  · intro k _ hk
    simp at hk

theorem lookup_buildRev {codes : List (String × BitStr)} {k : String}
    {v : BitStr} (hnd : (codes.map Prod.snd).Nodup) (hm : (k, v) ∈ codes) :
    List.lookup v (buildRev codes) = some k := by
  rw [buildRev_eq hnd]
  apply mem_lookup
  · have : (codes.map (fun kv => (kv.2, kv.1))).map Prod.fst =
        codes.map Prod.snd := by
      rw [List.map_map]
      rfl
    rw [this]
    exact hnd
  · exact List.mem_map.mpr ⟨(k, v), hm, rfl⟩

theorem lookup_buildRev_mem {codes : List (String × BitStr)} {p : BitStr}
    {x : String} (hnd : (codes.map Prod.snd).Nodup)
    (h : List.lookup p (buildRev codes) = some x) : (x, p) ∈ codes := by
  rw [buildRev_eq hnd] at h
  have := lookup_mem h
  obtain ⟨⟨k, v⟩, hm, he⟩ := List.mem_map.mp this
  simp at he
  obtain ⟨rfl, rfl⟩ := he
  exact hm

/-! ## Structure of successful text encoding -/

theorem encode_text_items (codes : List (String × BitStr)) :
    ∀ (text : List Char) (bits : BitStr),
      encode_text text codes = .ok bits →
      ∃ items : List (String × BitStr),
        items.map Prod.fst = text.map String.singleton ∧
        bits = (items.map Prod.snd).flatten ∧
        ∀ kv ∈ items, List.lookup kv.1 codes = some kv.2 := by
  intro text
  induction text with
  | nil =>
    intro bits h
    rw [encode_text] at h
    simp at h
    exact ⟨[], by simp, by simp [← h], by simp⟩
  | cons c cs ih =>
    intro bits h
    rw [encode_text] at h
    cases hl : List.lookup (String.singleton c) codes with
    | none => rw [hl] at h; simp at h
    | some w =>
      rw [hl] at h
      cases hrec : encode_text cs codes with
      | error e => rw [hrec] at h; simp at h
      | ok rest =>
        rw [hrec] at h
        simp at h
        obtain ⟨items, h1, h2, h3⟩ := ih rest hrec
        refine ⟨(String.singleton c, w) :: items, ?_, ?_, ?_⟩
        · simp [h1]
        · simp [← h, h2]
        · intro kv hkv
          rcases List.mem_cons.mp hkv with rfl | hkv2
          · exact hl
          · exact h3 kv hkv2

/-! ## UTF-8 round trip -/

theorem char_valid_nat (c : Char) :
    c.toNat < 55296 ∨ (57344 ≤ c.toNat ∧ c.toNat < 1114112) := by
  have h := c.valid
  simp [UInt32.isValidChar, Nat.isValidChar] at h
  rcases h with h | h
  · exact Or.inl h
  · exact Or.inr h

theorem isCont_true {b : Nat} (h1 : 128 ≤ b) (h2 : b < 192) :
    isCont b = true := by
  have h : isCont b = true ↔ (128 ≤ b ∧ b < 192) := by
    unfold isCont
    simp only [Bool.and_eq_true, decide_eq_true_eq]
  exact h.mpr ⟨h1, h2⟩

theorem utf8EncodeChar_step (c : Char) (rest : List Byte) :
    ∃ b tail, utf8EncodeChar c = b :: tail ∧
      utf8Step b (tail ++ rest) = some (c.toNat, rest) := by
  have hval := char_valid_nat c
  by_cases h1 : c.toNat < 128
  · refine ⟨c.toNat, [], ?_, ?_⟩
    · rw [utf8EncodeChar, if_pos h1]
    · rw [List.nil_append]
      unfold utf8Step
      rw [if_pos h1]
  · by_cases h2 : c.toNat < 2048
    · refine ⟨192 + c.toNat / 64, [128 + c.toNat % 64], ?_, ?_⟩
      · rw [utf8EncodeChar, if_neg h1, if_pos h2]
      · rw [List.cons_append, List.nil_append, utf8Step]
        have e1 : ¬(192 + c.toNat / 64 < 128) := by omega
        have e2 : ¬(192 + c.toNat / 64 < 192) := by omega
        have e3 : 192 + c.toNat / 64 < 224 := by omega
        rw [if_neg e1, if_neg e2, if_pos e3]
        have e4 : isCont (128 + c.toNat % 64) = true :=
          isCont_true (by omega) (by omega)
        have e5 : (192 + c.toNat / 64 - 192) * 64 + (128 + c.toNat % 64 - 128) =
            c.toNat := by
          omega
        simp only [e4, if_true, e5]
        rw [if_neg h1]
    · by_cases h3 : c.toNat < 65536
      · refine ⟨224 + c.toNat / 4096,
          [128 + c.toNat / 64 % 64, 128 + c.toNat % 64], ?_, ?_⟩
        · rw [utf8EncodeChar, if_neg h1, if_neg h2, if_pos h3]
        · rw [List.cons_append, List.cons_append, List.nil_append, utf8Step]
          have e1 : ¬(224 + c.toNat / 4096 < 128) := by omega
          have e2 : ¬(224 + c.toNat / 4096 < 192) := by omega
          have e3 : ¬(224 + c.toNat / 4096 < 224) := by omega
          have e4 : 224 + c.toNat / 4096 < 240 := by omega
          rw [if_neg e1, if_neg e2, if_neg e3, if_pos e4]
          have e5 : (isCont (128 + c.toNat / 64 % 64) &&
              isCont (128 + c.toNat % 64)) = true :=
            Bool.and_eq_true .. |>.mpr
              ⟨isCont_true (by omega) (by omega),
               isCont_true (by omega) (by omega)⟩
          have e6 : (224 + c.toNat / 4096 - 224) * 4096 +
              (128 + c.toNat / 64 % 64 - 128) * 64 +
              (128 + c.toNat % 64 - 128) = c.toNat := by
            omega
          have e7 : ¬(c.toNat < 2048 ∨ (55296 ≤ c.toNat ∧ c.toNat < 57344)) := by
            omega
          simp only [e5, if_true, e6]
          rw [if_neg e7]
      · refine ⟨240 + c.toNat / 262144,
          [128 + c.toNat / 4096 % 64, 128 + c.toNat / 64 % 64,
           128 + c.toNat % 64], ?_, ?_⟩
        · rw [utf8EncodeChar, if_neg h1, if_neg h2, if_neg h3]
        · rw [List.cons_append, List.cons_append, List.cons_append,
            List.nil_append, utf8Step]
          have e1 : ¬(240 + c.toNat / 262144 < 128) := by omega
          have e2 : ¬(240 + c.toNat / 262144 < 192) := by omega
          have e3 : ¬(240 + c.toNat / 262144 < 224) := by omega
          have e4 : ¬(240 + c.toNat / 262144 < 240) := by omega
          have e5 : 240 + c.toNat / 262144 < 248 := by omega
          rw [if_neg e1, if_neg e2, if_neg e3, if_neg e4, if_pos e5]
          have e6 : (isCont (128 + c.toNat / 4096 % 64) &&
              isCont (128 + c.toNat / 64 % 64) &&
              isCont (128 + c.toNat % 64)) = true := by
            rw [Bool.and_eq_true, Bool.and_eq_true]
            exact ⟨⟨isCont_true (by omega) (by omega),
              isCont_true (by omega) (by omega)⟩,
              isCont_true (by omega) (by omega)⟩
          have e7 : (240 + c.toNat / 262144 - 240) * 262144 +
              (128 + c.toNat / 4096 % 64 - 128) * 4096 +
              (128 + c.toNat / 64 % 64 - 128) * 64 +
              (128 + c.toNat % 64 - 128) = c.toNat := by
            omega
          have e8 : ¬(c.toNat < 65536 ∨ 1114111 < c.toNat) := by
            omega
          simp only [e6, if_true, e7]
          rw [if_neg e8]

theorem utf8DecodeAux_encodeChar (c : Char) (tail : List Byte) (fuel : Nat) :
    utf8DecodeAux (fuel + 1) (utf8EncodeChar c ++ tail) =
      (utf8DecodeAux fuel tail).map (fun s => c :: s) := by
  obtain ⟨b, t2, he, hs⟩ := utf8EncodeChar_step c tail
  rw [he, List.cons_append, utf8DecodeAux, hs]
  simp [Char.ofNat_toNat]

theorem utf8DecodeAux_encode (s : List Char) :
    ∀ (rest : List Byte) (fuel : Nat),
      utf8DecodeAux (s.length + fuel) (utf8Encode s ++ rest) =
        (utf8DecodeAux fuel rest).map (fun out => s ++ out) := by
  induction s with
  | nil =>
    intro rest fuel
    have h0 : utf8Encode [] = [] := rfl
    rw [h0, List.nil_append, List.length_nil, Nat.zero_add]
    cases utf8DecodeAux fuel rest <;> rfl
  | cons c cs ih =>
    intro rest fuel
    have h1 : utf8Encode (c :: cs) = utf8EncodeChar c ++ utf8Encode cs := by
      simp [utf8Encode]
    have h2 : (c :: cs).length + fuel = (cs.length + fuel) + 1 := by
      simp
      omega
    rw [h1, List.append_assoc, h2, utf8DecodeAux_encodeChar,
      ih rest fuel]
    cases utf8DecodeAux fuel rest <;> rfl

theorem utf8Encode_length_ge (s : List Char) :
    s.length ≤ (utf8Encode s).length := by
  induction s with
  | nil => simp [utf8Encode]
  | cons c cs ih =>
    have h1 : utf8Encode (c :: cs) = utf8EncodeChar c ++ utf8Encode cs := by
      simp [utf8Encode]
    obtain ⟨b, t2, he, _⟩ := utf8EncodeChar_step c []
    rw [h1, List.length_append, he]
    simp
    omega

theorem utf8Encode_decode (s : List Char) :
    utf8Decode (utf8Encode s) = some s := by
  have hge := utf8Encode_length_ge s
  have hx := utf8DecodeAux_encode s [] ((utf8Encode s).length - s.length)
  rw [List.append_nil] at hx
  have h1 : s.length + ((utf8Encode s).length - s.length) =
      (utf8Encode s).length := by
    omega
  rw [h1] at hx
  rw [utf8Decode, hx]
  simp [utf8DecodeAux]

/-! ## JSON header text round trip -/

theorem expectChars_append (pat : List Char) :
    ∀ (rest : List Char), expectChars pat (pat ++ rest) = some rest := by
  induction pat with
  | nil => intro rest; rfl
  | cons p ps ih =>
    intro rest
    rw [List.cons_append, expectChars, if_pos rfl]
    exact ih rest

theorem hexVal_hexDigit : ∀ n, n < 16 → hexVal (hexDigit n) = some n := by
  decide

theorem parseStringBody_escape (s : List Char) :
    ∀ (rest : List Char),
      parseStringBody ((s.map escapeChar).flatten ++ '\"' :: rest) =
        some (s, rest) := by
  induction s with
  | nil =>
    intro rest
    simp only [List.map_nil, List.flatten_nil, List.nil_append]
    rw [parseStringBody.eq_def]
    simp
  | cons c cs ih =>
    intro rest
    rw [List.map_cons, List.flatten_cons, List.append_assoc]
    rw [escapeChar]
    by_cases hq : c = '\"'
    · rw [if_pos hq, List.cons_append, List.cons_append, parseStringBody.eq_def]
      simp [unescape, ih rest, hq]
    · rw [if_neg hq]
      by_cases hbs : c = '\\'
      · rw [if_pos hbs, List.cons_append, List.cons_append,
          parseStringBody.eq_def]
        simp [unescape, ih rest, hbs]
      · rw [if_neg hbs]
        by_cases h8 : c = Char.ofNat 8
        · rw [if_pos h8, List.cons_append, List.cons_append,
            parseStringBody.eq_def]
          simp [unescape, ih rest, h8]
        · rw [if_neg h8]
          by_cases h9 : c = Char.ofNat 9
          · rw [if_pos h9, List.cons_append, List.cons_append,
              parseStringBody.eq_def]
            simp [unescape, ih rest, h9]
          · rw [if_neg h9]
            by_cases h10 : c = Char.ofNat 10
            · rw [if_pos h10, List.cons_append, List.cons_append,
                parseStringBody.eq_def]
              simp [unescape, ih rest, h10]
            · rw [if_neg h10]
              by_cases h12 : c = Char.ofNat 12
              · rw [if_pos h12, List.cons_append, List.cons_append,
                  parseStringBody.eq_def]
                simp [unescape, ih rest, h12]
              · rw [if_neg h12]
                by_cases h13 : c = Char.ofNat 13
                · rw [if_pos h13, List.cons_append, List.cons_append,
                    parseStringBody.eq_def]
                  simp [unescape, ih rest, h13]
                · rw [if_neg h13]
                  by_cases h32 : c.toNat < 32
                  · rw [if_pos h32]
                    rw [List.cons_append, List.cons_append, List.cons_append,
                      List.cons_append, List.cons_append, List.cons_append,
                      parseStringBody.eq_def]
                    have hd1 : hexVal (hexDigit (c.toNat / 16)) =
                        some (c.toNat / 16) :=
                      hexVal_hexDigit _ (by omega)
                    have hd2 : hexVal (hexDigit (c.toNat % 16)) =
                        some (c.toNat % 16) :=
                      hexVal_hexDigit _ (by omega)
                    have hz : hexVal '0' = some 0 := rfl
                    simp [hz, hd1, hd2, ih rest]
                    have harith : 16 * (c.toNat / 16) + c.toNat % 16 =
                        c.toNat := by
                      omega
                    simp [harith, Char.ofNat_toNat]
                  · rw [if_neg h32, List.cons_append, parseStringBody.eq_def]
                    simp [hq, hbs, h32, ih rest]

theorem charsToBits_bitsToChars (v : BitStr) :
    charsToBits (bitsToChars v) = some v := by
  induction v with
  | nil => rfl
  | cons b bs ih =>
    simp only [bitsToChars] at ih ⊢
    cases b <;> simp [charsToBits, ih]

set_option maxRecDepth 2048 in
theorem char_toNat_ofNat_small : ∀ m, m < 64 → (Char.ofNat m).toNat = m := by
  decide

/-- Powers of ten matching the digit count produced by `natToCharsAux`. -/
def tenPow : Nat → Nat
  | 0 => 1
  | n + 1 => 10 * tenPow ((n + 1) / 10)
decreasing_by omega

theorem natToCharsAux_foldl :
    ∀ (fuel n : Nat) (acc : List Char) (a : Nat), n ≤ fuel →
      (natToCharsAux fuel n acc).foldl (fun a c => 10 * a + (c.toNat - 48)) a =
        acc.foldl (fun a c => 10 * a + (c.toNat - 48)) (a * tenPow n + n) := by
  intro fuel
  induction fuel with
  | zero =>
    intro n acc a hle
    have hn : n = 0 := by omega
    subst hn
    rw [natToCharsAux, tenPow]
    simp
  | succ fuel ih =>
    intro n acc a hle
    rw [natToCharsAux]
    by_cases hn : n = 0
    · rw [if_pos hn, hn, tenPow]
      simp
    · rw [if_neg hn, ih (n / 10) _ _ (by omega)]
      rw [List.foldl_cons]
      congr 1
      have hc : (Char.ofNat (48 + n % 10)).toNat = 48 + n % 10 :=
        char_toNat_ofNat_small _ (by omega)
      rw [hc]
      have hdm : 10 * (n / 10) + n % 10 = n := by omega
      obtain ⟨m, rfl⟩ : ∃ m, n = m + 1 := ⟨n - 1, by omega⟩
      have ht : tenPow (m + 1) = 10 * tenPow ((m + 1) / 10) := by
        rw [tenPow]
      rw [ht]
      calc 10 * (a * tenPow ((m + 1) / 10) + (m + 1) / 10) +
            (48 + (m + 1) % 10 - 48)
          = a * (10 * tenPow ((m + 1) / 10)) +
              (10 * ((m + 1) / 10) + (m + 1) % 10) := by ring_nf; omega
        _ = a * (10 * tenPow ((m + 1) / 10)) + (m + 1) := by rw [hdm]

theorem natToCharsAux_digits :
    ∀ (fuel n : Nat) (acc : List Char), ∀ c ∈ natToCharsAux fuel n acc,
      c ∈ acc ∨ (48 ≤ c.toNat ∧ c.toNat ≤ 57) := by
  intro fuel
  induction fuel with
  | zero =>
    intro n acc c hc
    rw [natToCharsAux] at hc
    exact Or.inl hc
  | succ fuel ih =>
    intro n acc c hc
    rw [natToCharsAux] at hc
    by_cases hn : n = 0
    · rw [if_pos hn] at hc
      exact Or.inl hc
    · rw [if_neg hn] at hc
      rcases ih (n / 10) _ c hc with h | h
      · rcases List.mem_cons.mp h with h1 | h1
        · right
          rw [h1, char_toNat_ofNat_small _ (by omega)]
          omega
        · exact Or.inl h1
      · exact Or.inr h

theorem natToChars_digits (n : Nat) :
    ∀ c ∈ natToChars n, 48 ≤ c.toNat ∧ c.toNat ≤ 57 := by
  intro c hc
  rw [natToChars] at hc
  by_cases h : n = 0
  · rw [if_pos h] at hc
    simp at hc
    rw [hc]
    decide
  · rw [if_neg h] at hc
    rcases natToCharsAux_digits n n [] c hc with h1 | h1
    · simp at h1
    · exact h1

theorem natToChars_foldl (n : Nat) :
    (natToChars n).foldl (fun a c => 10 * a + (c.toNat - 48)) 0 = n := by
  rw [natToChars]
  by_cases h : n = 0
  · rw [if_pos h, h]
    decide
  · rw [if_neg h, natToCharsAux_foldl n n [] 0 (le_refl _)]
    simp

theorem natToChars_ne_nil (n : Nat) : natToChars n ≠ [] := by
  rw [natToChars]
  by_cases h : n = 0
  · rw [if_pos h]
    simp
  · rw [if_neg h]
    intro hc
    have := natToCharsAux_foldl n n [] 0 (le_refl _)
    rw [hc] at this
    simp at this
    exact h this.symm

theorem takeWhile_all_append {p : Char → Bool} :
    ∀ (l : List Char) (x : Char) (xs : List Char),
      (∀ c ∈ l, p c = true) → p x = false →
      (l ++ x :: xs).takeWhile p = l ∧ (l ++ x :: xs).dropWhile p = x :: xs := by
  intro l
  induction l with
  | nil =>
    intro x xs _ hx
    simp [List.takeWhile_cons, List.dropWhile_cons, hx]
  | cons c l ih =>
    intro x xs hall hx
    have hc : p c = true := hall c (by simp)
    obtain ⟨h1, h2⟩ := ih x xs (fun c2 h2 => hall c2 (by simp [h2])) hx
    simp [List.takeWhile_cons, List.dropWhile_cons, hc, h1, h2]

theorem parseNatChars_natToChars (n : Nat) (x : Char) (xs : List Char)
    (hx : ¬(48 ≤ x.toNat ∧ x.toNat ≤ 57)) :
    parseNatChars (natToChars n ++ x :: xs) = some (n, x :: xs) := by
  have hall : ∀ c ∈ natToChars n,
      (fun c => decide (48 ≤ c.toNat ∧ c.toNat ≤ 57)) c = true := by
    intro c hc
    simp only [decide_eq_true_eq]
    exact natToChars_digits n c hc
  have hxf : (fun c => decide (48 ≤ c.toNat ∧ c.toNat ≤ 57)) x = false := by
    simp only [decide_eq_false_iff_not]
    exact hx
  obtain ⟨h1, h2⟩ := takeWhile_all_append (natToChars n) x xs hall hxf
  rw [parseNatChars]
  simp only [h1, h2]
  rw [if_neg (natToChars_ne_nil n)]
  rw [natToChars_foldl]

theorem escapeChar_bit (b : Bool) :
    escapeChar (if b then '1' else '0') = [if b then '1' else '0'] := by
  cases b <;> rfl

theorem quoteChars_bits (v : BitStr) :
    quoteChars (bitsToChars v) =
      '\"' :: ((bitsToChars v).map escapeChar).flatten ++ ['\"'] := rfl

theorem expectChars_single (c : Char) (rest : List Char) :
    expectChars [c] (c :: rest) = some rest := by
  rw [expectChars, if_pos rfl]
  rfl

theorem expectChars_pair (a b : Char) (rest : List Char) :
    expectChars [a, b] (a :: b :: rest) = some rest := by
  rw [expectChars, if_pos rfl, expectChars, if_pos rfl]
  rfl

theorem expectChars_triple (a b c : Char) (rest : List Char) :
    expectChars [a, b, c] (a :: b :: c :: rest) = some rest := by
  rw [expectChars, if_pos rfl, expectChars, if_pos rfl, expectChars, if_pos rfl]
  rfl

theorem expectChars_cons_ne (p c : Char) (ps rest : List Char) (h : ¬c = p) :
    expectChars (p :: ps) (c :: rest) = none := by
  rw [expectChars, if_neg h]

theorem parse_entry_step (k : String) (v : BitStr) (tail : List Char) (f : Nat) :
    parseEntriesAux.parseEntryList (f + 1) (dumpEntry (k, v) ++ tail) =
      (match expectChars [rbrace] tail with
       | some rest => some ([(k, v)], rest)
       | none =>
         match expectChars [',', ' '] tail with
         | none => none
         | some s5 =>
           match parseEntriesAux.parseEntryList f s5 with
           | none => none
           | some (entries, rest) => some ((k, v) :: entries, rest)) := by
  have hinput : dumpEntry (k, v) ++ tail =
      '\"' :: ((k.data.map escapeChar).flatten ++ '\"' ::
        (':' :: ' ' :: ('\"' ::
          (((bitsToChars v).map escapeChar).flatten ++ '\"' :: tail)))) := by
    simp [dumpEntry, quoteChars]
  rw [hinput, parseEntriesAux.parseEntryList]
  simp only [expectChars_single, parseStringBody_escape, expectChars_triple,
    charsToBits_bitsToChars]

theorem parseEntryList_rt :
    ∀ (codes : List (String × BitStr)) (fuel : Nat) (rest : List Char),
      codes ≠ [] → codes.length ≤ fuel →
      parseEntriesAux.parseEntryList fuel (dumpEntries codes ++ rbrace :: rest) =
        some (codes, rest) := by
  intro codes
  induction codes with
  | nil => intro fuel rest hne; exact absurd rfl hne
  | cons kv more ih =>
    intro fuel rest _ hlen
    obtain ⟨f, rfl⟩ : ∃ f, fuel = f + 1 := by
      refine ⟨fuel - 1, ?_⟩
      have h1 : 1 ≤ fuel := by
        have h2 := hlen
        simp at h2
        omega
      omega
    obtain ⟨k, v⟩ := kv
    cases more with
    | nil =>
      rw [show dumpEntries [(k, v)] = dumpEntry (k, v) from rfl]
      rw [parse_entry_step k v (rbrace :: rest) f]
      simp only [expectChars_single]
    | cons kv2 more2 =>
      rw [show dumpEntries ((k, v) :: kv2 :: more2) =
        dumpEntry (k, v) ++ ',' :: ' ' :: dumpEntries (kv2 :: more2) from rfl]
      rw [List.append_assoc, List.cons_append, List.cons_append]
      rw [parse_entry_step k v
        (',' :: ' ' :: (dumpEntries (kv2 :: more2) ++ rbrace :: rest)) f]
      have hno : expectChars [rbrace]
          (',' :: ' ' :: (dumpEntries (kv2 :: more2) ++ rbrace :: rest)) =
          none :=
        expectChars_cons_ne rbrace ',' [] _ (by decide)
      have hyes : expectChars [',', ' ']
          (',' :: ' ' :: (dumpEntries (kv2 :: more2) ++ rbrace :: rest)) =
          some (dumpEntries (kv2 :: more2) ++ rbrace :: rest) :=
        expectChars_pair ',' ' ' _
      have hrec := ih f rest (by simp) (by simp at hlen ⊢; omega)
      simp only [hno, hyes, hrec]

theorem parseEntriesAux_rt (codes : List (String × BitStr)) (fuel : Nat)
    (rest : List Char) (hfuel : codes.length ≤ fuel) :
    parseEntriesAux fuel (dumpEntries codes ++ rbrace :: rest) =
      some (codes, rest) := by
  cases codes with
  | nil =>
    rw [show dumpEntries [] = [] from rfl, List.nil_append, parseEntriesAux]
    simp only [expectChars_single]
  | cons kv more =>
    rw [parseEntriesAux]
    obtain ⟨k, v⟩ := kv
    have ht : ∃ t, dumpEntries ((k, v) :: more) ++ rbrace :: rest =
        '\"' :: t := by
      cases more with
      | nil =>
        refine ⟨(k.data.map escapeChar).flatten ++ '\"' ::
          (':' :: ' ' :: ('\"' ::
            (((bitsToChars v).map escapeChar).flatten ++ '\"' ::
              (rbrace :: rest)))), ?_⟩
        simp [dumpEntries, dumpEntry, quoteChars]
      | cons kv2 more2 =>
        refine ⟨(k.data.map escapeChar).flatten ++ '\"' ::
          (':' :: ' ' :: ('\"' ::
            (((bitsToChars v).map escapeChar).flatten ++ '\"' ::
              (',' :: ' ' :: (dumpEntries (kv2 :: more2) ++
                rbrace :: rest))))), ?_⟩
        simp [dumpEntries, dumpEntry, quoteChars]
    obtain ⟨t, htt⟩ := ht
    have hfirst : expectChars [rbrace]
        (dumpEntries ((k, v) :: more) ++ rbrace :: rest) = none := by
      rw [htt]
      exact expectChars_cons_ne rbrace '\"' [] _ (by decide)
    simp only [hfirst]
    exact parseEntryList_rt ((k, v) :: more) fuel rest (by simp) hfuel

theorem dumpEntries_length_ge (codes : List (String × BitStr)) :
    codes.length ≤ (dumpEntries codes).length := by
  induction codes with
  | nil => simp [dumpEntries]
  | cons kv more ih =>
    obtain ⟨k, v⟩ := kv
    cases more with
    | nil => simp [dumpEntries, dumpEntry, quoteChars]
    | cons kv2 more2 =>
      rw [show dumpEntries ((k, v) :: kv2 :: more2) =
        dumpEntry (k, v) ++ ',' :: ' ' :: dumpEntries (kv2 :: more2) from rfl]
      simp only [List.length_append, List.length_cons]
      have h1 : 1 ≤ (dumpEntry (k, v)).length := by
        simp [dumpEntry, quoteChars]
      simp at ih ⊢
      omega

/-- The header text emitted by `json.dumps` parses back to exactly the
codes table and padding it was built from. -/
theorem parseHeader_dumpHeader (codes : List (String × BitStr)) (padding : Nat) :
    parseHeader (dumpHeader codes padding) = some ⟨codes, some padding⟩ := by
  have hsplit : dumpHeader codes padding =
      (lbrace :: quoteChars "codes".data ++ [':', ' ', lbrace]) ++
        (dumpEntries codes ++ rbrace ::
          (',' :: ' ' :: (quoteChars "padding".data ++ ':' :: ' ' ::
            (natToChars padding ++ [rbrace])))) := by
    simp [dumpHeader]
  have hfuel : codes.length ≤ (dumpEntries codes ++ rbrace ::
      (',' :: ' ' :: (quoteChars "padding".data ++ ':' :: ' ' ::
        (natToChars padding ++ [rbrace])))).length := by
    have h1 := dumpEntries_length_ge codes
    simp [List.length_append]
    omega
  have hparse := parseEntriesAux_rt codes _
    (',' :: ' ' :: (quoteChars "padding".data ++ ':' :: ' ' ::
      (natToChars padding ++ [rbrace]))) hfuel
  have hno : expectChars [rbrace]
      (',' :: ' ' :: (quoteChars "padding".data ++ ':' :: ' ' ::
        (natToChars padding ++ [rbrace]))) = none :=
    expectChars_cons_ne rbrace ',' [] _ (by decide)
  have hpad : expectChars
      (',' :: ' ' :: quoteChars "padding".data ++ [':', ' '])
      (',' :: ' ' :: (quoteChars "padding".data ++ ':' :: ' ' ::
        (natToChars padding ++ [rbrace]))) =
      some (natToChars padding ++ [rbrace]) := by
    have he : (',' :: ' ' :: quoteChars "padding".data ++ [':', ' ']) ++
        (natToChars padding ++ [rbrace]) =
        ',' :: ' ' :: (quoteChars "padding".data ++ ':' :: ' ' ::
          (natToChars padding ++ [rbrace])) := by
      simp
    rw [← he]
    exact expectChars_append _ _
  have hrb : ¬(48 ≤ rbrace.toNat ∧ rbrace.toNat ≤ 57) := by decide
  have hnat := parseNatChars_natToChars padding rbrace [] hrb
  rw [parseHeader, hsplit, expectChars_append]
  simp only [hparse, hno, hpad, hnat]
  simp

/-! ## The container frame -/

theorem toBytesBE4_ok {n : Nat} {lenB : List Byte}
    (h : toBytesBE4 n = .ok lenB) :
    lenB.length = 4 ∧ fromBytesBE lenB = n := by
  rw [toBytesBE4] at h
  by_cases hn : n < 4294967296
  · rw [if_pos hn] at h
    simp at h
    subst h
    refine ⟨rfl, ?_⟩
    have hfb : fromBytesBE [n / 16777216 % 256, n / 65536 % 256,
        n / 256 % 256, n % 256] =
        256 * (256 * (256 * (n / 16777216 % 256) + n / 65536 % 256) +
          n / 256 % 256) + n % 256 := by
      simp [fromBytesBE]
    rw [hfb]
    omega
  · rw [if_neg hn] at h
    simp at h

/-- Reading a well-formed frame: the 4-byte length, then the UTF-8 JSON
header, then an arbitrary payload. -/
theorem read_frame (codes : List (String × BitStr)) (padding : Nat)
    (lenB : List Byte) (p : List Byte)
    (hlen : toBytesBE4 (utf8Encode (dumpHeader codes padding)).length = .ok lenB) :
    read_huff_file (lenB ++ utf8Encode (dumpHeader codes padding) ++ p) =
      .ok (⟨codes, some padding⟩, p) := by
  obtain ⟨h4, hval⟩ := toBytesBE4_ok hlen
  rw [read_huff_file]
  have hlenfile : (lenB ++ utf8Encode (dumpHeader codes padding) ++ p).length =
      4 + (utf8Encode (dumpHeader codes padding)).length + p.length := by
    simp [List.length_append, h4]
    omega
  rw [if_neg (by omega)]
  have htake : (lenB ++ utf8Encode (dumpHeader codes padding) ++ p).take 4 =
      lenB := by
    rw [List.append_assoc]
    exact List.take_left' h4
  have hdrop : (lenB ++ utf8Encode (dumpHeader codes padding) ++ p).drop 4 =
      utf8Encode (dumpHeader codes padding) ++ p := by
    rw [List.append_assoc]
    exact List.drop_left' h4
  have htake2 : (utf8Encode (dumpHeader codes padding) ++ p).take
      (utf8Encode (dumpHeader codes padding)).length =
      utf8Encode (dumpHeader codes padding) :=
    List.take_left' rfl
  have hdrop2 : (utf8Encode (dumpHeader codes padding) ++ p).drop
      (utf8Encode (dumpHeader codes padding)).length = p :=
    List.drop_left' rfl
  simp only [htake, hdrop, hval, htake2, hdrop2, utf8Encode_decode,
    parseHeader_dumpHeader]

theorem write_ok {codes : List (String × BitStr)} {payload : List Byte}
    {padding : Nat} {file : List Byte}
    (h : write_huff_file codes payload padding = .ok file) :
    ∃ lenB, toBytesBE4 (utf8Encode (dumpHeader codes padding)).length = .ok lenB ∧
      file = lenB ++ utf8Encode (dumpHeader codes padding) ++ payload := by
  rw [write_huff_file] at h
  cases htb : toBytesBE4 (utf8Encode (dumpHeader codes padding)).length with
  | error e => rw [htb] at h; simp at h
  | ok lenB =>
    rw [htb] at h
    simp at h
    exact ⟨lenB, rfl, by rw [← h, List.append_assoc]⟩

/-- Decoding the packed form of a bitstring with the padding it was
packed with recovers the greedy decode of the bitstring itself. -/
theorem decode_bits_of_packed (bits : BitStr) (codes : List (String × BitStr)) :
    decode_bits_to_text (bytes_to_bits (bits_to_bytes bits).1) codes
      (bits_to_bytes bits).2 = decodeLoop (buildRev codes) [] bits := by
  rw [decode_bits_to_text]
  by_cases hp : (bits_to_bytes bits).2 = 0
  · rw [if_pos hp]
    rw [bits_to_bytes_unpack, hp]
    simp
  · rw [if_neg hp]
    rw [bits_to_bytes_strip]

/-! ## The full round trip -/

theorem compress_ok {text : List Char} {ids : Nat → Nat} {file : List Byte}
    (hc : compress text ids = .ok file) :
    ∃ bits lenB,
      encode_text text (generate_codes
        (build_huffman_tree (build_frequency_map text) ids)) = .ok bits ∧
      toBytesBE4 (utf8Encode (dumpHeader
        (generate_codes (build_huffman_tree (build_frequency_map text) ids))
        (bits_to_bytes bits).2)).length = .ok lenB ∧
      file = lenB ++ utf8Encode (dumpHeader
        (generate_codes (build_huffman_tree (build_frequency_map text) ids))
        (bits_to_bytes bits).2) ++ (bits_to_bytes bits).1 := by
  rw [compress] at hc
  cases he : encode_text text (generate_codes
      (build_huffman_tree (build_frequency_map text) ids)) with
  | error e =>
    rw [he] at hc
    simp at hc
  | ok bits =>
    rw [he] at hc
    obtain ⟨lenB, htb, hfile⟩ := write_ok hc
    exact ⟨bits, lenB, rfl, htb, hfile⟩

/-- Decompressing any container that `compress` produced returns the
original text. -/
theorem compress_decompress {text : List Char} {ids : Nat → Nat}
    {file : List Byte} (hc : compress text ids = .ok file) :
    decompress file = .ok text := by
  obtain ⟨bits, lenB, he, htb, rfl⟩ := compress_ok hc
  have hread := read_frame
    (generate_codes (build_huffman_tree (build_frequency_map text) ids))
    (bits_to_bytes bits).2 lenB (bits_to_bytes bits).1 htb
  rw [decompress]
  simp only [hread, Option.getD_some]
  rw [decode_bits_of_packed]
  by_cases htext : text = []
  · subst htext
    rw [encode_text] at he
    simp at he
    subst he
    rw [decodeLoop]
    simp
  · have hfreqne : build_frequency_map text ≠ [] := by
      obtain ⟨c, hcm⟩ := List.exists_mem_of_ne_nil text htext
      intro hcon
      have hk := (build_frequency_map_mem_keys text c).mpr hcm
      rw [hcon] at hk
      simp at hk
    obtain ⟨root, hb, _⟩ := build_tree_spec (build_frequency_map text) ids hfreqne
    have hnodup := build_symbols_nodup hb hfreqne
      (build_frequency_map_keys_nodup text)
    have hcodes : generate_codes
        (build_huffman_tree (build_frequency_map text) ids) = root.paths [] := by
      rw [hb]
      exact generate_codes_eq_paths root hnodup
    have hpw : PairwiseNP (root.paths []) := root_pairwiseNP root
    have hvnodup := PairwiseNP_values_nodup hpw
    obtain ⟨items, hfst, hbits, hlk⟩ := encode_text_items _ text bits he
    rw [hcodes] at hlk ⊢
    rw [hbits]
    have hsymm : Symmetric (fun x y : String × BitStr =>
        ¬ x.2 <+: y.2 ∧ ¬ y.2 <+: x.2) := by
      intro x y hxy
      exact ⟨hxy.2, hxy.1⟩
    have hconcat := decodeLoop_concat (buildRev (root.paths [])) items ?_
    · rw [hconcat]
      have hflat : (items.map (fun kv => kv.1.data)).flatten = text := by
        have h1 : items.map (fun kv => kv.1.data) =
            (items.map Prod.fst).map String.data := by
          rw [List.map_map]
          rfl
        rw [h1, hfst, List.map_map]
        have h2 : (String.data ∘ String.singleton) = fun c : Char => [c] := by
          funext c
          rfl
        rw [h2]
        have h3 := flatten_map_singleton text (fun c => c)
        simpa using h3
      rw [hflat]
    · intro kv hkv
      have hmem : (kv.1, kv.2) ∈ root.paths [] := lookup_mem (hlk kv hkv)
      refine ⟨root_paths_nonempty root (kv.1, kv.2) hmem, ?_, ?_⟩
      · exact lookup_buildRev hvnodup hmem
      · intro p hp hpne hpn
        cases hlp : List.lookup p (buildRev (root.paths [])) with
        | none => rfl
        | some x =>
          have hm2 : (x, p) ∈ root.paths [] := lookup_buildRev_mem hvnodup hlp
          have hne2 : (x, p) ≠ (kv.1, kv.2) := by
            intro hcon
            exact hpn (congrArg Prod.snd hcon)
          have hnp := (hpw.forall hsymm hm2 hmem hne2).1
          exact absurd hp hnp

/-! ## The single-symbol pipeline -/

theorem foldl_bumpFreq_replicate (c : Char) :
    ∀ (k m : Nat), List.foldl bumpFreq [(c, m)] (List.replicate k c) =
      [(c, m + k)] := by
  intro k
  induction k with
  | zero => intro m; simp
  | succ k ih =>
    intro m
    rw [List.replicate_succ, List.foldl_cons]
    have hb : bumpFreq [(c, m)] c = [(c, m + 1)] := by
      simp [bumpFreq]
    rw [hb, ih]
    have : m + 1 + k = m + (k + 1) := by omega
    rw [this]

theorem freq_replicate (c : Char) (n : Nat) (h : 1 ≤ n) :
    build_frequency_map (List.replicate n c) = [(c, n)] := by
  obtain ⟨m, rfl⟩ : ∃ m, n = m + 1 := ⟨n - 1, by omega⟩
  rw [build_frequency_map, List.replicate_succ, List.foldl_cons]
  have hb : bumpFreq [] c = [(c, 1)] := rfl
  rw [hb, foldl_bumpFreq_replicate]
  have : 1 + m = m + 1 := by omega
  rw [this]

theorem build_replicate_tree (c : Char) (n : Nat) (ids : Nat → Nat) :
    build_huffman_tree [(c, n)] ids =
      some (Node.internal n (ids 2)
        (Node.leaf n (ids 0) (String.singleton c))
        (Node.leaf 0 (ids 1) "")) := rfl

theorem codes_replicate (c : Char) (n : Nat) (ids : Nat → Nat) (h : 1 ≤ n) :
    generate_codes (build_huffman_tree
      (build_frequency_map (List.replicate n c)) ids) =
      [(String.singleton c, [false]), ("", [true])] := by
  rw [freq_replicate c n h, build_replicate_tree, generate_codes]
  rw [genDfs, genDfs, genDfs]
  simp [dictInsert, singleton_ne_empty c]

theorem encode_replicate (c : Char) :
    ∀ n, encode_text (List.replicate n c)
      [(String.singleton c, [false]), ("", [true])] =
      .ok (List.replicate n false) := by
  intro n
  induction n with
  | zero => rfl
  | succ n ih =>
    rw [List.replicate_succ, encode_text]
    have hl : List.lookup (String.singleton c)
        [(String.singleton c, [false]), ("", [true])] = some [false] := by
      rw [lookup_cons, if_pos (by simp)]
    rw [hl, ih, List.replicate_succ]
    rfl

theorem chunk8_replicate_zero :
    ∀ k, chunk8 (List.replicate (8 * k) false) = List.replicate k 0 := by
  intro k
  induction k with
  | zero => rfl
  | succ k ih =>
    have h8 : 8 * (k + 1) = 8 * k + 8 := by omega
    rw [h8]
    have hne : List.replicate (8 * k + 8) false =
        false :: List.replicate (8 * k + 7) false := by
      rw [show 8 * k + 8 = (8 * k + 7) + 1 from by omega, List.replicate_succ]
    rw [hne, chunk8_cons, ← hne]
    have htake : (List.replicate (8 * k + 8) false).take 8 =
        List.replicate 8 false := by
      rw [List.take_replicate]
      congr 1
      omega
    have hdrop : (List.replicate (8 * k + 8) false).drop 8 =
        List.replicate (8 * k) false := by
      rw [List.drop_replicate]
      congr 1
    rw [htake, hdrop, ih]
    have hbyte : byteOfBits (List.replicate 8 false) = 0 := rfl
    rw [hbyte, List.replicate_succ]

theorem bytes_to_bits_zeros :
    ∀ m, bytes_to_bits (List.replicate m 0) = List.replicate (8 * m) false := by
  intro m
  induction m with
  | zero => rfl
  | succ m ih =>
    rw [List.replicate_succ, bytes_to_bits, List.map_cons, List.flatten_cons]
    rw [show (List.map bitsOfByte (List.replicate m 0)).flatten =
      bytes_to_bits (List.replicate m 0) from rfl, ih]
    have hb : bitsOfByte 0 = List.replicate 8 false := rfl
    rw [hb, ← List.replicate_add]
    congr 1
    omega

theorem decode_zeros (c : Char) :
    ∀ m, decodeLoop [([false], String.singleton c), ([true], "")] []
      (List.replicate m false) = .ok (List.replicate m c) := by
  intro m
  induction m with
  | zero => rfl
  | succ m ih =>
    rw [List.replicate_succ, decodeLoop_cons]
    have hl : List.lookup ([] ++ [false])
        [([false], String.singleton c), ([true], "")] =
        some (String.singleton c) := by
      rw [List.nil_append, lookup_cons, if_pos (by simp)]
    rw [hl, ih, List.replicate_succ]
    rfl

/-! ## Claim C1 -/

/-- C1: round-trip identity.  For every non-empty symbol sequence, every
id-assignment (covering every Python run), and every container the
encode pipeline produces for it, the decode pipeline returns exactly the
original sequence. -/
theorem claim_C1_roundtrip (t : List Char) (ids : Nat → Nat)
    (file : List Byte) (hne : t ≠ []) (hc : compress t ids = .ok file) :
    decompress file = .ok t :=
  compress_decompress hc

/-- Witness for C1 at the input ab. -/
theorem claim_C1_roundtrip_witness :
    decompress [0, 0, 0, 45, 123, 34, 99, 111, 100, 101, 115, 34, 58, 32, 123,
      34, 97, 34, 58, 32, 34, 48, 34, 44, 32, 34, 98, 34, 58, 32, 34, 49, 34,
      125, 44, 32, 34, 112, 97, 100, 100, 105, 110, 103, 34, 58, 32, 54, 125,
      64] = .ok ['a', 'b'] :=
  claim_C1_roundtrip ['a', 'b'] (fun n => n) _ (by simp) (by rfl)

/-! ## Claim C2 -/

theorem compress_nil (ids : Nat → Nat) :
    compress [] ids =
      .ok [0, 0, 0, 27, 123, 34, 99, 111, 100, 101, 115, 34, 58, 32, 123, 125,
        44, 32, 34, 112, 97, 100, 100, 105, 110, 103, 34, 58, 32, 48, 125] := by
  have hg : generate_codes (build_huffman_tree (build_frequency_map []) ids) =
      [] := rfl
  show write_huff_file (generate_codes (build_huffman_tree
    (build_frequency_map []) ids)) [] 0 = _
  rw [hg]
  rfl

/-- C2 counterexample: compressing the empty input succeeds and produces
a container — no EmptyInputError is raised anywhere (no such exception
exists in the code). -/
theorem claim_C2_counterexample :
    compress [] (fun n => n) =
      .ok [0, 0, 0, 27, 123, 34, 99, 111, 100, 101, 115, 34, 58, 32, 123, 125,
        44, 32, 34, 112, 97, 100, 100, 105, 110, 103, 34, 58, 32, 48, 125] :=
  rfl

/-- C2 amended: the encode pipeline does not fail on a zero-symbol
input: the tree builder returns the null tree (`None`) and the pipeline
still produces a container with an empty code table, padding 0 and an
empty payload. -/
theorem claim_C2_empty_no_error (ids : Nat → Nat) :
    build_huffman_tree (build_frequency_map []) ids = none ∧
    compress [] ids =
      .ok [0, 0, 0, 27, 123, 34, 99, 111, 100, 101, 115, 34, 58, 32, 123, 125,
        44, 32, 34, 112, 97, 100, 100, 105, 110, 103, 34, 58, 32, 48, 125] :=
  ⟨rfl, compress_nil ids⟩

/-! ## Claim C10 -/

/-- C10: encoding the empty symbol sequence succeeds; the container
holds an empty code table, padding 0 and an empty payload, and decoding
it returns the empty sequence. -/
theorem claim_C10_empty_roundtrip (ids : Nat → Nat) :
    compress [] ids =
      .ok [0, 0, 0, 27, 123, 34, 99, 111, 100, 101, 115, 34, 58, 32, 123, 125,
        44, 32, 34, 112, 97, 100, 100, 105, 110, 103, 34, 58, 32, 48, 125] ∧
    read_huff_file [0, 0, 0, 27, 123, 34, 99, 111, 100, 101, 115, 34, 58, 32,
      123, 125, 44, 32, 34, 112, 97, 100, 100, 105, 110, 103, 34, 58, 32, 48,
      125] = .ok (⟨[], some 0⟩, []) ∧
    decompress [0, 0, 0, 27, 123, 34, 99, 111, 100, 101, 115, 34, 58, 32, 123,
      125, 44, 32, 34, 112, 97, 100, 100, 105, 110, 103, 34, 58, 32, 48, 125] =
      .ok [] :=
  ⟨compress_nil ids, rfl, rfl⟩

/-! ## Claim C4 -/

/-- C4: tie-breaking is identity-based, not a deterministic
content-based order: two runs over the same frequency table that differ
only in the `id()` values of the allocated nodes produce different code
tables. -/
theorem claim_C4_identity_tiebreak :
    generate_codes (build_huffman_tree [('a', 1), ('b', 1)] (fun n => n)) ≠
      generate_codes (build_huffman_tree [('a', 1), ('b', 1)]
        (fun n => 1 - n)) := by
  decide

/-! ## Claim C5 -/

/-- C5 counterexample: for the single-symbol input aaaa the generated
code table has TWO entries, not one: the placeholder leaf carries the
empty string, which is not `None`, so `generate_codes` includes it with
code 1. -/
theorem claim_C5_counterexample :
    generate_codes (build_huffman_tree
      (build_frequency_map ['a', 'a', 'a', 'a']) (fun n => n)) =
      [("a", [false]), ("", [true])] ∧
    (generate_codes (build_huffman_tree
      (build_frequency_map ['a', 'a', 'a', 'a']) (fun n => n))).length ≠ 1 :=
  ⟨rfl, by decide⟩

/-- C5 amended: an input of one repeated symbol yields a code table with
exactly two entries — the symbol itself with the one-bit code 0 and the
synthesized placeholder (empty-string symbol, which is not excluded)
with code 1 — and the round trip still reproduces the original
sequence. -/
theorem claim_C5_single_symbol (c : Char) (n : Nat) (ids : Nat → Nat)
    (file : List Byte) (hn : 1 ≤ n)
    (hc : compress (List.replicate n c) ids = .ok file) :
    generate_codes (build_huffman_tree
      (build_frequency_map (List.replicate n c)) ids) =
      [(String.singleton c, [false]), ("", [true])] ∧
    decompress file = .ok (List.replicate n c) :=
  ⟨codes_replicate c n ids hn, compress_decompress hc⟩

/-- Witness for C5 at aaaa. -/
theorem claim_C5_single_symbol_witness :
    generate_codes (build_huffman_tree
      (build_frequency_map (List.replicate 4 'a')) (fun n => n)) =
      [(String.singleton 'a', [false]), ("", [true])] ∧
    decompress [0, 0, 0, 44, 123, 34, 99, 111, 100, 101, 115, 34, 58, 32, 123,
      34, 97, 34, 58, 32, 34, 48, 34, 44, 32, 34, 34, 58, 32, 34, 49, 34, 125,
      44, 32, 34, 112, 97, 100, 100, 105, 110, 103, 34, 58, 32, 52, 125, 0] =
      .ok (List.replicate 4 'a') :=
  claim_C5_single_symbol 'a' 4 (fun n => n) _ (by omega) (by rfl)

/-! ## Claim C7 -/

theorem truncated_zeros_decode (c : Char) (n : Nat) (ids : Nat → Nat)
    (file : List Byte) (hmod : n % 8 = 4) (hn : 12 ≤ n)
    (hc : compress (List.replicate n c) ids = .ok file) :
    decompress file.dropLast = .ok (List.replicate (n - 8) c) := by
  obtain ⟨k, hk⟩ : ∃ k, n + 4 = 8 * k := ⟨(n + 4) / 8, by omega⟩
  obtain ⟨bits, lenB, he, htb, hfile⟩ := compress_ok hc
  rw [codes_replicate c n ids (by omega)] at he htb hfile
  rw [encode_replicate c n] at he
  have hbits := Except.ok.inj he
  subst hbits
  have hpad : (bits_to_bytes (List.replicate n false)).2 = 4 := by
    show (8 - (List.replicate n false).length % 8) % 8 = 4
    rw [List.length_replicate]
    omega
  have hpay : (bits_to_bytes (List.replicate n false)).1 =
      List.replicate k 0 := by
    show chunk8 (List.replicate n false ++
      List.replicate ((8 - (List.replicate n false).length % 8) % 8) false) = _
    rw [List.length_replicate]
    have h4 : (8 - n % 8) % 8 = 4 := by omega
    rw [h4, ← List.replicate_add, hk, chunk8_replicate_zero]
  rw [hpad] at htb
  rw [hpad, hpay] at hfile
  obtain ⟨k1, rfl⟩ : ∃ k1, k = k1 + 1 := ⟨k - 1, by omega⟩
  have hdl : file.dropLast = lenB ++ utf8Encode (dumpHeader
      [(String.singleton c, [false]), ("", [true])] 4) ++
      List.replicate k1 0 := by
    rw [hfile, List.replicate_succ', ← List.append_assoc, List.dropLast_concat]
  have hread := read_frame [(String.singleton c, [false]), ("", [true])] 4 lenB
    (List.replicate k1 0) htb
  rw [hdl, decompress]
  simp only [hread, Option.getD_some]
  rw [bytes_to_bits_zeros, decode_bits_to_text]
  rw [if_neg (by omega : ¬(4 : Nat) = 0)]
  rw [List.length_replicate, List.take_replicate]
  have hmin : min (8 * k1 - 4) (8 * k1) = 8 * k1 - 4 := by omega
  rw [hmin]
  have hrev : buildRev [(String.singleton c, [false]), ("", [true])] =
      [([false], String.singleton c), ([true], "")] := rfl
  rw [hrev]
  have h58 : 8 * k1 - 4 = n - 8 := by omega
  rw [h58]
  exact decode_zeros c (n - 8)

/-- C7 counterexample: a valid container for aaaaaaaaaaaa (twelve a)
whose payload is truncated by one byte still decodes without any error,
returning the silently wrong text aaaa. -/
theorem claim_C7_counterexample :
    compress (List.replicate 12 'a') (fun n => n) =
      .ok [0, 0, 0, 44, 123, 34, 99, 111, 100, 101, 115, 34, 58, 32, 123, 34,
        97, 34, 58, 32, 34, 48, 34, 44, 32, 34, 34, 58, 32, 34, 49, 34, 125,
        44, 32, 34, 112, 97, 100, 100, 105, 110, 103, 34, 58, 32, 52, 125, 0,
        0] ∧
    decompress (List.dropLast [0, 0, 0, 44, 123, 34, 99, 111, 100, 101, 115,
      34, 58, 32, 123, 34, 97, 34, 58, 32, 34, 48, 34, 44, 32, 34, 34, 58, 32,
      34, 49, 34, 125, 44, 32, 34, 112, 97, 100, 100, 105, 110, 103, 34, 58,
      32, 52, 125, 0, 0]) = .ok (List.replicate 4 'a') ∧
    (List.replicate 4 'a' : List Char) ≠ List.replicate 12 'a' :=
  ⟨rfl, rfl, by decide⟩

/-- C7 amended: truncating the payload by one byte is NOT always
detected.  Whenever the truncated bits still split on codeword
boundaries — e.g. any single-repeated-symbol input whose length is 4 mod
8 — the decoder silently returns a result different from the original
input (here, eight symbols shorter). -/
theorem claim_C7_truncation_silent (c : Char) (n : Nat) (ids : Nat → Nat)
    (file : List Byte) (hmod : n % 8 = 4) (hn : 12 ≤ n)
    (hc : compress (List.replicate n c) ids = .ok file) :
    decompress file.dropLast = .ok (List.replicate (n - 8) c) ∧
    List.replicate (n - 8) c ≠ List.replicate n c := by
  refine ⟨truncated_zeros_decode c n ids file hmod hn hc, ?_⟩
  intro hcon
  have hlen := congrArg List.length hcon
  simp at hlen
  omega

/-- Witness for C7 at twelve a. -/
theorem claim_C7_truncation_silent_witness :
    decompress (List.dropLast [0, 0, 0, 44, 123, 34, 99, 111, 100, 101, 115,
      34, 58, 32, 123, 34, 97, 34, 58, 32, 34, 48, 34, 44, 32, 34, 34, 58, 32,
      34, 49, 34, 125, 44, 32, 34, 112, 97, 100, 100, 105, 110, 103, 34, 58,
      32, 52, 125, 0, 0]) = .ok (List.replicate (12 - 8) 'a') ∧
    List.replicate (12 - 8) 'a' ≠ List.replicate 12 'a' :=
  claim_C7_truncation_silent 'a' 12 (fun n => n) _ (by decide) (by decide)
    (by rfl)

/-! ## Claim C8 -/

/-- C8 counterexample: a container whose header declares padding 8 —
outside the documented range [0,7] — is accepted without any error by
container deserialization, and even decompresses. -/
theorem claim_C8_counterexample :
    read_huff_file ([0, 0, 0, 35] ++ [123, 34, 99, 111, 100, 101, 115, 34, 58,
      32, 123, 34, 97, 34, 58, 32, 34, 48, 34, 125, 44, 32, 34, 112, 97, 100,
      100, 105, 110, 103, 34, 58, 32, 56, 125] ++ [0]) =
      .ok (⟨[("a", [false])], some 8⟩, [0]) ∧
    decompress ([0, 0, 0, 35] ++ [123, 34, 99, 111, 100, 101, 115, 34, 58, 32,
      123, 34, 97, 34, 58, 32, 34, 48, 34, 125, 44, 32, 34, 112, 97, 100, 100,
      105, 110, 103, 34, 58, 32, 56, 125] ++ [0]) = .ok [] :=
  ⟨rfl, rfl⟩

/-- C8 amended: of the three failure conditions the claim lists, only
two hold and one is refuted.  (1) Fewer than 4 length bytes is an error;
(2) an unparsable header block is an error; (3) BUT a declared header
length exceeding the available bytes is NOT an error (`f.read` silently
returns what is available), a header missing the padding key is accepted
with padding defaulted to 0, and a padding value outside [0,7] (here 8)
is accepted and decoded with. -/
theorem claim_C8_format_errors :
    read_huff_file [0, 0, 0] =
      .error (.valueError "Not a valid .huff file (missing header length)") ∧
    read_huff_file [0, 0, 0, 2, 123, 34] =
      .error (.valueError "header decode failed") ∧
    read_huff_file ([0, 0, 3, 232] ++ [123, 34, 99, 111, 100, 101, 115, 34,
      58, 32, 123, 125, 44, 32, 34, 112, 97, 100, 100, 105, 110, 103, 34, 58,
      32, 48, 125]) = .ok (⟨[], some 0⟩, []) ∧
    read_huff_file [0, 0, 0, 13, 123, 34, 99, 111, 100, 101, 115, 34, 58, 32,
      123, 125, 125] = .ok (⟨[], none⟩, []) ∧
    decompress [0, 0, 0, 13, 123, 34, 99, 111, 100, 101, 115, 34, 58, 32, 123,
      125, 125] = .ok [] ∧
    decompress ([0, 0, 0, 35] ++ [123, 34, 99, 111, 100, 101, 115, 34, 58, 32,
      123, 34, 97, 34, 58, 32, 34, 48, 34, 125, 44, 32, 34, 112, 97, 100, 100,
      105, 110, 103, 34, 58, 32, 56, 125] ++ [0]) = .ok [] :=
  ⟨rfl, rfl, rfl, rfl, rfl, rfl⟩

end Huffman

